import Mathlib

/-!
# Verification of the htmd text-processing pipeline

A shallow embedding of the repository's two source modules
(`citation.js` and the markdown/math processing module) over `List Char`,
together with proofs settling the specification claims.

Strings are modelled as `List Char`.  JavaScript's global
`String.prototype.replace(regex, f)` is modelled by a fuelled left-to-right
scanner (`scanRep`): at each position it attempts the pattern match; on
success it emits the replacement and resumes after the consumed span
(replacements are not rescanned, as in JS); on failure it emits one
character and advances.  Each concrete regex of the source is implemented
as a dedicated matcher function mirroring the regex's exact semantics
(laziness, lookaheads, character classes).
-/

namespace Htmd

/-- JavaScript `\\s` character class (whitespace, as used by `trim` too):
space, tab, LF, VT, FF, CR, NBSP, Ogham space, U+2000..U+200A, LS, PS,
NNBSP, MMSP, ideographic space, BOM. -/
def isJsWs (c : Char) : Bool :=
  let n := c.toNat
  n = 32 || n = 9 || n = 10 || n = 11 || n = 12 || n = 13 ||
  n = 0xa0 || n = 0x1680 || (0x2000 <= n && n <= 0x200a) ||
  n = 0x2028 || n = 0x2029 || n = 0x202f || n = 0x205f || n = 0x3000 ||
  n = 0xfeff

/-- JavaScript line terminators (the characters `.` does not match):
LF, CR, LS, PS. -/
def isLineTerm (c : Char) : Bool :=
  let n := c.toNat
  n = 10 || n = 13 || n = 0x2028 || n = 0x2029

/-- `[^\S\n]`: whitespace that is not a newline. -/
def isNbWs (c : Char) : Bool := isJsWs c && c ≠ '\n'

/-- JavaScript word characters, for `\b` boundaries. -/
def isWordChar (c : Char) : Bool :=
  ('a' ≤ c && c ≤ 'z') || ('A' ≤ c && c ≤ 'Z') || ('0' ≤ c && c ≤ '9') || c = '_'

/-- `String.prototype.trim`: strip `\s` from both ends. -/
def jsTrim (s : List Char) : List Char :=
  ((s.dropWhile isJsWs).reverse.dropWhile isJsWs).reverse

/-- Does `pre` occur as a literal prefix of `s`? -/
def startsWithL : List Char → List Char → Bool
  | [], _ => true
  | _ :: _, [] => false
  | p :: ps, c :: cs => p = c && startsWithL ps cs

/-- Does `pat` occur as a literal substring of `s`?  (Model of
`RegExp.prototype.test` for a pattern with no metacharacters.) -/
def containsL (pat : List Char) : List Char → Bool
  | [] => startsWithL pat []
  | c :: cs => startsWithL pat (c :: cs) || containsL pat cs

/-- Strip the literal prefix `pre` from `s`, if present. -/
def stripPrefixL : List Char → List Char → Option (List Char)
  | [], s => some s
  | _ :: _, [] => none
  | p :: ps, c :: cs => if p = c then stripPrefixL ps cs else none

/-! ## Decimal rendering of array indices

Placeholder tokens embed the store index in decimal.  A JavaScript array
lookup `store[ds]` with a digit-string key `ds` yields an element exactly
when `ds` is the canonical decimal representation of an index below the
array length, which we capture via a round-trip check below. -/

def digitChar (n : Nat) : Char := Char.ofNat (48 + n)

def natDigitsAux : Nat → Nat → List Char
  | 0, _ => []
  | f + 1, n => if n < 10 then [digitChar n] else natDigitsAux f (n / 10) ++ [digitChar (n % 10)]

/-- Canonical decimal digits of `n` (what JS writes into a placeholder). -/
def natDigits (n : Nat) : List Char := natDigitsAux (n + 1) n

/-- Numeric value of a digit string. -/
def dsToNat (ds : List Char) : Nat :=
  ds.foldl (fun a c => 10 * a + (c.toNat - 48)) 0

theorem natDigitsAux_irrel : ∀ n f f', n < f → n < f' →
    natDigitsAux f n = natDigitsAux f' n := by
  intro n
  induction n using Nat.strong_induction_on with
  | _ n ih =>
    intro f f' hf hf'
    match f, f', hf, hf' with
    | f + 1, f' + 1, hf, hf' =>
      by_cases h10 : n < 10
      · simp [natDigitsAux, h10]
      · have hd : n / 10 < n := Nat.div_lt_self (by omega) (by omega)
        simp only [natDigitsAux, h10, if_false]
        rw [ih (n / 10) hd f f' (by omega) (by omega)]

theorem natDigits_eq (n : Nat) :
    natDigits n = if n < 10 then [digitChar n] else natDigits (n / 10) ++ [digitChar (n % 10)] := by
  by_cases h10 : n < 10
  · simp [natDigits, natDigitsAux, h10]
  · have hd : n / 10 < n := Nat.div_lt_self (by omega) (by omega)
    show natDigitsAux (n + 1) n = _
    simp only [natDigitsAux, h10, if_false]
    rw [natDigitsAux_irrel (n / 10) n (n / 10 + 1) (by omega) (by omega)]
    rfl

theorem natDigits_ne_nil (n : Nat) : natDigits n ≠ [] := by
  rw [natDigits_eq]
  by_cases h : n < 10 <;> simp [h]

theorem toNat_digitChar (n : Nat) (h : n < 10) : (digitChar n).toNat = 48 + n := by
  interval_cases n <;> decide

theorem isDigit_digitChar (n : Nat) (h : n < 10) : (digitChar n).isDigit = true := by
  interval_cases n <;> decide

theorem dsToNat_append_single (xs : List Char) (c : Char) :
    dsToNat (xs ++ [c]) = 10 * dsToNat xs + (c.toNat - 48) := by
  simp [dsToNat, List.foldl_append]

theorem dsToNat_natDigits : ∀ n, dsToNat (natDigits n) = n := by
  intro n
  induction n using Nat.strong_induction_on with
  | _ n ih =>
    rw [natDigits_eq]
    by_cases h : n < 10
    · simp only [h, if_true]
      show dsToNat ([] ++ [digitChar n]) = n
      rw [dsToNat_append_single, toNat_digitChar n h]
      simp [dsToNat]
    · simp only [h, if_false]
      rw [dsToNat_append_single, ih (n / 10) (Nat.div_lt_self (by omega) (by omega)),
        toNat_digitChar (n % 10) (by omega)]
      omega

/-! ## `encodeURIComponent` / `decodeURIComponent`

`encodeURIComponent` leaves the unreserved characters
`A–Z a–z 0–9 - _ . ! ~ * ' ( )` alone and percent-encodes the UTF-8
bytes of every other character with uppercase hex digits.
`decodeURIComponent` inverts this; it throws a `URIError` on a malformed
percent escape or an invalid UTF-8 byte sequence, which we model as
`none`. -/

/-- Characters `encodeURIComponent` leaves unescaped. -/
def uriUnreserved (c : Char) : Bool :=
  ('A' ≤ c && c ≤ 'Z') || ('a' ≤ c && c ≤ 'z') || ('0' ≤ c && c ≤ '9') ||
  c = '-' || c = '_' || c = '.' || c = '!' || c = '~' || c = '*' ||
  c = '\'' || c = '(' || c = ')'

def hexDigitUpper (n : Nat) : Char :=
  if n < 10 then Char.ofNat (48 + n) else Char.ofNat (55 + n)

/-- UTF-8 bytes of a scalar value. -/
def utf8Bytes (c : Char) : List Nat :=
  let n := c.toNat
  if n < 0x80 then [n]
  else if n < 0x800 then [0xc0 + n / 0x40, 0x80 + n % 0x40]
  else if n < 0x10000 then
    [0xe0 + n / 0x1000, 0x80 + (n / 0x40) % 0x40, 0x80 + n % 0x40]
  else
    [0xf0 + n / 0x40000, 0x80 + (n / 0x1000) % 0x40, 0x80 + (n / 0x40) % 0x40,
      0x80 + n % 0x40]

def percentByte (b : Nat) : List Char :=
  ['%', hexDigitUpper (b / 16), hexDigitUpper (b % 16)]

def encodeURIComponent (s : List Char) : List Char :=
  s.flatMap fun c =>
    if uriUnreserved c then [c] else (utf8Bytes c).flatMap percentByte

/-- Value of a hex digit (case-insensitive), if any. -/
def hexVal (c : Char) : Option Nat :=
  if '0' ≤ c ∧ c ≤ '9' then some (c.toNat - 48)
  else if 'A' ≤ c ∧ c ≤ 'F' then some (c.toNat - 55)
  else if 'a' ≤ c ∧ c ≤ 'f' then some (c.toNat - 87)
  else none

/-- Read `%XY` from the head of the list, returning the byte and the rest. -/
def readPct : List Char → Option (Nat × List Char)
  | '%' :: h :: l :: rest =>
    match hexVal h, hexVal l with
    | some a, some b => some (16 * a + b, rest)
    | _, _ => none
  | _ => none

/-- Read a continuation byte `%XY` with `lo ≤ XY ≤ hi`. -/
def readCont (lo hi : Nat) (s : List Char) : Option (Nat × List Char) :=
  match readPct s with
  | some (b, rest) => if lo ≤ b ∧ b ≤ hi then some (b - 0x80, rest) else none
  | none => none

/-- Decode one percent-escaped UTF-8 sequence starting at a `%`.
Returns the decoded scalar and the rest; `none` on malformed input
(bad hex, invalid lead byte, continuation byte out of range — i.e. a
`URIError` in JS, which rejects overlong and surrogate encodings). -/
def decodeUtf8Seq (s : List Char) : Option (Char × List Char) :=
  match readPct s with
  | none => none
  | some (b0, r0) =>
    if b0 < 0x80 then some (Char.ofNat b0, r0)
    else if 0xc2 ≤ b0 ∧ b0 ≤ 0xdf then
      match readCont 0x80 0xbf r0 with
      | some (c1, r1) => some (Char.ofNat ((b0 - 0xc0) * 0x40 + c1), r1)
      | none => none
    else if 0xe0 ≤ b0 ∧ b0 ≤ 0xef then
      let lo1 := if b0 = 0xe0 then 0xa0 else 0x80
      let hi1 := if b0 = 0xed then 0x9f else 0xbf
      match readCont lo1 hi1 r0 with
      | some (c1, r1) =>
        match readCont 0x80 0xbf r1 with
        | some (c2, r2) =>
          some (Char.ofNat ((b0 - 0xe0) * 0x1000 + c1 * 0x40 + c2), r2)
        | none => none
      | none => none
    else if 0xf0 ≤ b0 ∧ b0 ≤ 0xf4 then
      let lo1 := if b0 = 0xf0 then 0x90 else 0x80
      let hi1 := if b0 = 0xf4 then 0x8f else 0xbf
      match readCont lo1 hi1 r0 with
      | some (c1, r1) =>
        match readCont 0x80 0xbf r1 with
        | some (c2, r2) =>
          match readCont 0x80 0xbf r2 with
          | some (c3, r3) =>
            some (Char.ofNat ((b0 - 0xf0) * 0x40000 + c1 * 0x1000 + c2 * 0x40 + c3), r3)
          | none => none
        | none => none
      | none => none
    else none

def decodeURIAux : Nat → List Char → Option (List Char)
  | _, [] => some []
  | 0, _ => none
  | f + 1, '%' :: rest =>
    match decodeUtf8Seq ('%' :: rest) with
    | some (c, r) => (decodeURIAux f r).map (c :: ·)
    | none => none
  | f + 1, c :: rest => (decodeURIAux f rest).map (c :: ·)

/-- Model of `decodeURIComponent`: `none` means the JS call throws. -/
def decodeURIComponentOpt (s : List Char) : Option (List Char) :=
  decodeURIAux s.length s

/-! ## Generic global regex-replace scanner -/

/-- One global `replace` pass: `t cs` attempts a match at the head of `cs`,
returning the replacement text and the unconsumed remainder.  On failure
the scanner emits one character and advances, as the JS regex engine
retries at the next index.  `fuel` only needs to dominate the number of
scanner steps; every instance below is run with fuel `cs.length`, which
suffices because every match consumes at least one character. -/
def scanRep (t : List Char → Option (List Char × List Char)) :
    Nat → List Char → List Char
  | _, [] => []
  | 0, cs => cs
  | f + 1, c :: rest =>
    match t (c :: rest) with
    | some (rep, rem) => rep ++ scanRep t f rem
    | none => c :: scanRep t f rest

/-- `text.replace(regex, f)` with the global flag. -/
def gReplace (t : List Char → Option (List Char × List Char))
    (cs : List Char) : List Char :=
  scanRep t cs.length cs

/-- A matcher is *consuming* when a successful match always eats at least
one character.  All matchers in this development are consuming. -/
def Consuming (t : List Char → Option (List Char × List Char)) : Prop :=
  ∀ cs rep rem, t cs = some (rep, rem) → rem.length < cs.length

theorem scanRep_cons_some {t f c rest rep rem}
    (h : t (c :: rest) = some (rep, rem)) :
    scanRep t (f + 1) (c :: rest) = rep ++ scanRep t f rem := by
  simp [scanRep, h]

theorem scanRep_cons_none {t f c rest} (h : t (c :: rest) = none) :
    scanRep t (f + 1) (c :: rest) = c :: scanRep t f rest := by
  simp [scanRep, h]

theorem scanRep_fuel {t} (ht : Consuming t) :
    ∀ f cs, cs.length ≤ f → scanRep t f cs = gReplace t cs := by
  intro f
  induction f using Nat.strong_induction_on with
  | _ f ih =>
    intro cs hf
    match cs with
    | [] => cases f <;> rfl
    | c :: rest =>
      match f, hf with
      | f + 1, hf =>
        have hf' : rest.length + 1 ≤ f + 1 := by simpa using hf
        show scanRep t (f + 1) (c :: rest) = scanRep t (rest.length + 1) (c :: rest)
        cases hm : t (c :: rest) with
        | none =>
          rw [scanRep_cons_none hm, scanRep_cons_none hm,
            ih f (by omega) rest (by omega),
            ih rest.length (by omega) rest le_rfl]
        | some pr =>
          obtain ⟨rep, rem⟩ := pr
          have hlt : rem.length < rest.length + 1 := ht _ _ _ hm
          rw [scanRep_cons_some hm, scanRep_cons_some hm,
            ih f (by omega) rem (by omega),
            ih rest.length (by omega) rem (by omega)]

theorem gReplace_nil (t) : gReplace t [] = [] := rfl

theorem gReplace_cons_none {t c rest} (h : t (c :: rest) = none) :
    gReplace t (c :: rest) = c :: gReplace t rest := by
  show scanRep t (rest.length + 1) (c :: rest) = _
  simp only [scanRep, h]
  rfl

theorem gReplace_cons_some {t c rest rep rem} (ht : Consuming t)
    (h : t (c :: rest) = some (rep, rem)) :
    gReplace t (c :: rest) = rep ++ gReplace t rem := by
  show scanRep t (rest.length + 1) (c :: rest) = _
  simp only [scanRep, h]
  have hlt : rem.length < rest.length + 1 := ht _ _ _ h
  rw [scanRep_fuel ht rest.length rem (by omega)]

/-- If the matcher fails on every suffix beginning inside `x`, the scanner
copies `x` verbatim and continues on `y`. -/
theorem gReplace_append_nomatch {t} (x y : List Char)
    (hx : ∀ c r, c ∈ x → t (c :: r) = none) :
    gReplace t (x ++ y) = x ++ gReplace t y := by
  induction x with
  | nil => rfl
  | cons c x ih =>
    have h := hx c (x ++ y) (List.mem_cons_self c x)
    rw [List.cons_append, gReplace_cons_none h,
      ih (fun c' r hc' => hx c' r (List.mem_cons_of_mem c hc')), List.cons_append]

/-- If the matcher fails on every suffix of `x`, `x` is unchanged. -/
theorem gReplace_id_of_nomatch {t} (x : List Char)
    (hx : ∀ c r, c ∈ x → t (c :: r) = none) :
    gReplace t x = x := by
  have := gReplace_append_nomatch (t := t) x [] hx
  simpa [gReplace_nil] using this

theorem natDigits_all_digits : ∀ n c, c ∈ natDigits n → c.isDigit = true := by
  intro n
  induction n using Nat.strong_induction_on with
  | _ n ih =>
    intro c hc
    rw [natDigits_eq] at hc
    by_cases h : n < 10
    · simp only [h, if_true, List.mem_singleton] at hc
      subst hc; exact isDigit_digitChar n h
    · simp only [h, if_false, List.mem_append, List.mem_singleton] at hc
      rcases hc with hc | hc
      · exact ih (n / 10) (Nat.div_lt_self (by omega) (by omega)) c hc
      · subst hc; exact isDigit_digitChar (n % 10) (by omega)

/-! ## `citation.js` -/

/-- `TEXT_FRAGMENT_PREFIX = '#:~:text='`. -/
def TEXT_FRAGMENT_PREFIX : List Char := "#:~:text=".data

/-- `encodeCitationPayload`: trim; empty gives `''`; otherwise
`encodeURIComponent(decodeURIComponent(value))`, falling back to
`encodeURIComponent(value)` when decoding throws. -/
def encodeCitationPayload (text : List Char) : List Char :=
  if jsTrim text = [] then []
  else
    match decodeURIComponentOpt (jsTrim text) with
    | some decoded => encodeURIComponent decoded
    | none => encodeURIComponent (jsTrim text)

/-- Head match of `\[(\d+)\]\(#:~:text=` (the `citationStartRegex` body):
returns the digit group and the text after the prefix. -/
def matchCitPrefix : List Char → Option (List Char × List Char)
  | '[' :: rest =>
    if rest.takeWhile Char.isDigit = [] then none
    else
      match stripPrefixL (']' :: '(' :: TEXT_FRAGMENT_PREFIX)
          (rest.dropWhile Char.isDigit) with
      | some r2 => some (rest.takeWhile Char.isDigit, r2)
      | none => none
  | _ => none

/-- The character-by-character payload scan of `normalizeTextFragmentLinks`:
from depth `d`, stop at the `)` that brings the depth to 0 (returning the
payload before it and the rest after it); abort on a newline or
end-of-text. -/
def scanPayloadAux : Nat → List Char → Option (List Char × List Char)
  | _, [] => none
  | d, c :: rest =>
    if c = '\n' then none
    else if c = '(' then
      (scanPayloadAux (d + 1) rest).map fun p => (c :: p.1, p.2)
    else if c = ')' then
      if d = 1 then some ([], rest)
      else (scanPayloadAux (d - 1) rest).map fun p => (c :: p.1, p.2)
    else (scanPayloadAux d rest).map fun p => (c :: p.1, p.2)

/-- One candidate of `normalizeTextFragmentLinks` at the current position:
the prefix `[n](#:~:text=` followed by a depth-balanced payload and its
closing `)`.  On success the emitted replacement re-encodes the payload.
On failure (no prefix here, or no balanced `)` before a newline or
end-of-text) the candidate is skipped.

The JS loop resumes a failed candidate's scan right after the matched
prefix (`continue` keeps `lastIndex` at the payload start) while the
generic scanner resumes one character later; the two agree because the
prefix `[digits](#:~:text=` contains no `[` after its first character,
so no citation start can begin inside it. -/
def tryNormCit (cs : List Char) : Option (List Char × List Char) :=
  match matchCitPrefix cs with
  | none => none
  | some (ds, r2) =>
    match scanPayloadAux 1 r2 with
    | none => none
    | some (payload, after) =>
      some ('[' :: ds ++ ']' :: '(' :: (TEXT_FRAGMENT_PREFIX ++
        encodeCitationPayload payload ++ [')']), after)

/-- `normalizeTextFragmentLinks`. -/
def normalizeTextFragmentLinks (text : List Char) : List Char :=
  gReplace tryNormCit text

/-- `[^)\n]` of the `citationLinkRegex`. -/
def citContentChar (c : Char) : Bool := !(c = ')' || c = '\n')

/-- Head match of `citationLinkRegex = \[\d+\]\(#:~:text=[^)\n]+\)`. -/
def matchCitLinkF : List Char → Option (List Char × List Char)
  | '[' :: rest =>
    if rest.takeWhile Char.isDigit = [] then none
    else
      match stripPrefixL (']' :: '(' :: TEXT_FRAGMENT_PREFIX)
          (rest.dropWhile Char.isDigit) with
      | some r2 =>
        if r2.takeWhile citContentChar = [] then none
        else
          match r2.dropWhile citContentChar with
          | ')' :: r4 =>
            some ('[' :: rest.takeWhile Char.isDigit ++ ']' :: '(' ::
              (TEXT_FRAGMENT_PREFIX ++ r2.takeWhile citContentChar ++ [')']), r4)
          | _ => none
      | none => none
  | _ => none

/-- Greedy repetition of `(?:link\s*)` for the group regex
`(?:\[\d+\]\(#:~:text=[^)\n]+\)\s*){2,}`: collect as many
`(link, trailing-ws)` units as match, returning them with the rest. -/
def matchUnitsAux : Nat → List Char → List (List Char × List Char) × List Char
  | 0, cs => ([], cs)
  | f + 1, cs =>
    match matchCitLinkF cs with
    | none => ([], cs)
    | some (link, r) =>
      match r.span isJsWs with
      | (ws, r2) =>
        match matchUnitsAux f r2 with
        | (units, rem) => ((link, ws) :: units, rem)

def matchUnits (cs : List Char) : List (List Char × List Char) × List Char :=
  matchUnitsAux cs.length cs

/-- Maximal `\s` suffix (the `/\s*$/` match of the callback). -/
def maxWsSuffix (cs : List Char) : List Char :=
  (cs.reverse.takeWhile isJsWs).reverse

def dropWsSuffix (cs : List Char) : List Char :=
  (cs.reverse.dropWhile isJsWs).reverse

/-- Global match collection (`String.prototype.match` with `g`). -/
def gMatchesAux (m : List Char → Option (List Char × List Char)) :
    Nat → List Char → List (List Char)
  | _, [] => []
  | 0, _ => []
  | f + 1, c :: rest =>
    match m (c :: rest) with
    | some (mt, rem) => mt :: gMatchesAux m f rem
    | none => gMatchesAux m f rest

def gMatches (m : List Char → Option (List Char × List Char))
    (cs : List Char) : List (List Char) :=
  gMatchesAux m cs.length cs

/-- The full-width vertical bar `｜` (U+FF5C) used to join citation runs. -/
def fullwidthBar : Char := Char.ofNat 0xff5c

def joinBar : List (List Char) → List Char
  | [] => []
  | [l] => l
  | l :: ls => l ++ fullwidthBar :: joinBar ls

/-- One candidate of `formatConsecutiveCitationLinks`: a greedy run of two
or more citation links separated by whitespace.  The callback splits off
the run's trailing whitespace, re-extracts the links from the core, and
joins them with `｜` (returning the run unchanged if fewer than two links
re-extract). -/
def tryCitGroup (cs : List Char) : Option (List Char × List Char) :=
  match matchUnits cs with
  | (units, rem) =>
    if units.length < 2 then none
    else
      let group := (units.map fun u => u.1 ++ u.2).flatten
      let tw := maxWsSuffix group
      let core := dropWsSuffix group
      let links := gMatches matchCitLinkF core
      if links.length < 2 then some (group, rem)
      else some (joinBar links ++ tw, rem)

/-- `formatConsecutiveCitationLinks`. -/
def formatConsecutiveCitationLinks (text : List Char) : List Char :=
  gReplace tryCitGroup text

/-- The exact text matched by `citationLinkRegex`
(`\[\d+\]\(#:~:text=[^)\n]+\)`): `[<digits>](#:~:text=<payload>)`. -/
def citMarkerL (ds p : List Char) : List Char :=
  '[' :: ds ++ ']' :: '(' :: (TEXT_FRAGMENT_PREFIX ++ p ++ [')'])

/-- The side conditions of that regex's character classes: a nonempty
digit string and a nonempty payload free of `)` and newline. -/
def CitParts (ds p : List Char) : Prop :=
  ds ≠ [] ∧ ds.all Char.isDigit = true ∧ p ≠ [] ∧ p.all citContentChar = true

/-- Concatenation of a list of `(marker, whitespace)` units — the `group`
string assembled by the `{2,}` repetition of the group regex. -/
def runOf (units : List (List Char × List Char)) : List Char :=
  (units.map fun u => u.1 ++ u.2).flatten

/-- `processCitations` (the depth-scan variant of `citation.js`). -/
def processCitations (text : List Char) : List Char :=
  if text = [] then text
  else formatConsecutiveCitationLinks (normalizeTextFragmentLinks text)

/-- `decodeCitation`: `decodeURIComponent`, returning the input unchanged
when decoding throws. -/
def decodeCitation (encodedText : List Char) : List Char :=
  (decodeURIComponentOpt encodedText).getD encodedText

/-! ## The markdown module: `processBoldFormatting`

Eleven ordered global regex substitutions.  Named characters used by the
CJK-punctuation passes. -/

def fwColon : Char := Char.ofNat 0xff1a
def fwComma : Char := Char.ofNat 0xff0c
def fwRParen : Char := Char.ofNat 0xff09
def cjkStop : Char := Char.ofNat 0x3002

/-- Pass 1: `:\s\*\*` → `:**`. -/
def tryBold1 : List Char → Option (List Char × List Char)
  | ':' :: w :: '*' :: '*' :: rest =>
    if isJsWs w then some ([':', '*', '*'], rest) else none
  | _ => none

/-- Pass 2: `\*\*([^*]+?)\*\*[^\S\n]+` → `@@$1@@#`. -/
def tryBold2 : List Char → Option (List Char × List Char)
  | '*' :: '*' :: rest =>
    match rest.span (fun c => !(c = '*')) with
    | (content, r2) =>
      if content = [] then none
      else
        match r2 with
        | '*' :: '*' :: r3 =>
          match r3.span isNbWs with
          | (ws, r4) =>
            if ws = [] then none
            else some ('@' :: '@' :: (content ++ ['@', '@', '#']), r4)
        | _ => none
  | _ => none

/-- `\*\*` occurs later with no line terminator in between (for the
`.*\*\*` tail of a lookahead). -/
def starsNoLT : List Char → Bool
  | '*' :: '*' :: _ => true
  | c :: rest => !isLineTerm c && starsNoLT rest
  | [] => false

/-- Lookahead `(?=.*[^\S\n].*\*\*)`. -/
def lookWsStars : List Char → Bool
  | [] => false
  | c :: rest => (isNbWs c && starsNoLT rest) || (!isLineTerm c && lookWsStars rest)

/-- Lookahead `(?=.*：.*\*\*)`. -/
def lookColonStars : List Char → Bool
  | [] => false
  | c :: rest => (c = fwColon && starsNoLT rest) || (!isLineTerm c && lookColonStars rest)

/-- `(?!\s)`: the next character, if any, is not whitespace. -/
def notFollowedByWs : List Char → Bool
  | [] => true
  | c :: _ => !isJsWs c

/-- Pass 3: `\*\*(?=.*[^\S\n].*\*\*)([^*]+?)\*\*(?!\s)` → `#%$1%#@`. -/
def tryBold3 : List Char → Option (List Char × List Char)
  | '*' :: '*' :: rest =>
    if lookWsStars rest then
      match rest.span (fun c => !(c = '*')) with
      | (content, r2) =>
        if content = [] then none
        else
          match r2 with
          | '*' :: '*' :: r3 =>
            if notFollowedByWs r3 then
              some ('#' :: '%' :: (content ++ ['%', '#', '@']), r3)
            else none
          | _ => none
    else none
  | _ => none

/-- Pass 4: `\*\*(?=.*：.*\*\*)([^*]+?)\*\*(?!\s)` → `**$1** `. -/
def tryBold4 : List Char → Option (List Char × List Char)
  | '*' :: '*' :: rest =>
    if lookColonStars rest then
      match rest.span (fun c => !(c = '*')) with
      | (content, r2) =>
        if content = [] then none
        else
          match r2 with
          | '*' :: '*' :: r3 =>
            if notFollowedByWs r3 then
              some ('*' :: '*' :: (content ++ ['*', '*', ' ']), r3)
            else none
          | _ => none
    else none
  | _ => none

/-- Earliest `@@#`, with no line terminator before it (`.` cannot cross one). -/
def splitAAH : List Char → Option (List Char × List Char)
  | '@' :: '@' :: '#' :: rest => some ([], rest)
  | c :: rest =>
    if isLineTerm c then none
    else (splitAAH rest).map fun p => (c :: p.1, p.2)
  | [] => none

/-- Pass 5: `\@\@(.+?)\@\@#` → `**$1** `. -/
def tryBold5 : List Char → Option (List Char × List Char)
  | '@' :: '@' :: c0 :: rest =>
    if isLineTerm c0 then none
    else (splitAAH rest).map fun p => ('*' :: '*' :: (c0 :: p.1 ++ ['*', '*', ' ']), p.2)
  | _ => none

/-- Earliest `%#@`, with no line terminator before it. -/
def splitPHA : List Char → Option (List Char × List Char)
  | '%' :: '#' :: '@' :: rest => some ([], rest)
  | c :: rest =>
    if isLineTerm c then none
    else (splitPHA rest).map fun p => (c :: p.1, p.2)
  | [] => none

/-- Pass 6: `\#\%(.+?)\%\#\@` → `**$1** `. -/
def tryBold6 : List Char → Option (List Char × List Char)
  | '#' :: '%' :: c0 :: rest =>
    if isLineTerm c0 then none
    else (splitPHA rest).map fun p => ('*' :: '*' :: (c0 :: p.1 ++ ['*', '*', ' ']), p.2)
  | _ => none

/-- Lazy `([^\s]+?)\*\*(?!\s)`: the shortest nonempty all-non-whitespace
content followed by `**` whose next character is not whitespace. -/
def findBoldEnd : List Char → Option (List Char × List Char)
  | [] => none
  | c :: rest =>
    if isJsWs c then none
    else
      match rest with
      | '*' :: '*' :: r3 =>
        if notFollowedByWs r3 then some ([c], r3)
        else (findBoldEnd rest).map fun p => (c :: p.1, p.2)
      | _ => (findBoldEnd rest).map fun p => (c :: p.1, p.2)

/-- Pass 7: ` *\*\*([^\s]+?)\*\*(?!\s)` → ` **$1** `. -/
def tryBold7 (cs : List Char) : Option (List Char × List Char) :=
  match cs.span (fun c => c = ' ') with
  | (_, r) =>
    match r with
    | '*' :: '*' :: r2 =>
      (findBoldEnd r2).map fun p => (' ' :: '*' :: '*' :: (p.1 ++ ['*', '*', ' ']), p.2)
    | _ => none

/-- Lazy `(.+?)` of `(\*\*.+?\*\*)\s<p>`: the shortest nonempty content
(no line terminators) followed by `**`, one whitespace, and `p`. -/
def scanPunct (p : Char) : List Char → Option (List Char × List Char)
  | [] => none
  | c :: rest =>
    if isLineTerm c then none
    else
      match rest with
      | '*' :: '*' :: w :: q :: tail =>
        if isJsWs w && q = p then some ([c], tail)
        else (scanPunct p rest).map fun pr => (c :: pr.1, pr.2)
      | _ => (scanPunct p rest).map fun pr => (c :: pr.1, pr.2)

/-- Passes 8–12: `(\*\*.+?\*\*)\s<p>` → `$1<p>` for `p` among `：，,.。`. -/
def tryBoldPunct (p : Char) : List Char → Option (List Char × List Char)
  | '*' :: '*' :: rest =>
    (scanPunct p rest).map fun pr => ('*' :: '*' :: (pr.1 ++ ['*', '*', p]), pr.2)
  | _ => none

/-- `processBoldFormatting`: the eleven substitutions in source order. -/
def processBoldFormatting (text : List Char) : List Char :=
  let t1 := gReplace tryBold1 text
  let t2 := gReplace tryBold2 t1
  let t3 := gReplace tryBold3 t2
  let t4 := gReplace tryBold4 t3
  let t5 := gReplace tryBold5 t4
  let t6 := gReplace tryBold6 t5
  let t7 := gReplace tryBold7 t6
  let t8 := gReplace (tryBoldPunct fwColon) t7
  let t9 := gReplace (tryBoldPunct fwComma) t8
  let t10 := gReplace (tryBoldPunct ',') t9
  let t11 := gReplace (tryBoldPunct '.') t10
  gReplace (tryBoldPunct cjkStop) t11

/-! ## `processThinkTags` -/

def thinkOpenL : List Char := ['<', 't', 'h', 'i', 'n', 'k', '>']

def thinkCloseL : List Char := ['<', '/', 't', 'h', 'i', 'n', 'k', '>']

/-- `'> ' + line.trim()` applied to each line of `content.trim()`,
joined with `\n` — the callback of both think-tag replacements. -/
def splitNL : List Char → List (List Char)
  | [] => [[]]
  | c :: rest =>
    if c = '\n' then [] :: splitNL rest
    else
      match splitNL rest with
      | l :: ls => (c :: l) :: ls
      | [] => [[c]]

def joinNL : List (List Char) → List Char
  | [] => []
  | [l] => l
  | l :: ls => l ++ '\n' :: joinNL ls

def thinkTransform (content : List Char) : List Char :=
  joinNL ((splitNL (jsTrim content)).map fun line => '>' :: ' ' :: jsTrim line)

/-- Earliest `</think>` (lazy `[\s\S]*?`), returning content and the rest
after the closing tag. -/
def splitAtCloseThink : List Char → Option (List Char × List Char)
  | [] => none
  | c :: rest =>
    if startsWithL thinkCloseL (c :: rest) then some ([], (c :: rest).drop 8)
    else (splitAtCloseThink rest).map fun p => (c :: p.1, p.2)

/-- First replacement: `<think>([\s\S]*?)<\/think>` → blockquote lines. -/
def tryThink1 (cs : List Char) : Option (List Char × List Char) :=
  if startsWithL thinkOpenL cs then
    (splitAtCloseThink (cs.drop 7)).map fun p => (thinkTransform p.1, p.2)
  else none

/-- Content up to (but excluding) the earliest `</think>`, or to the end
(the lookahead `(?=<\/think>|$)` is not consumed). -/
def splitBeforeCloseOrEnd : List Char → List Char × List Char
  | [] => ([], [])
  | c :: rest =>
    if startsWithL thinkCloseL (c :: rest) then ([], c :: rest)
    else
      match splitBeforeCloseOrEnd rest with
      | (a, b) => (c :: a, b)

/-- The optional newline `\n?` right after the opening tag. -/
def dropLeadNL (cs : List Char) : List Char :=
  if cs.head? = some '\n' then cs.tail else cs

/-- Second replacement: `<think>\n?([\s\S]*?)(?=<\/think>|$)`.  The matched
text stops before any `</think>`, so the callback's
`match.includes('</think>')` test is always false and the content is
always transformed. -/
def tryThink2 (cs : List Char) : Option (List Char × List Char) :=
  if startsWithL thinkOpenL cs then
    match splitBeforeCloseOrEnd (dropLeadNL (cs.drop 7)) with
    | (content, after) => some (thinkTransform content, after)
  else none

/-- `processThinkTags`: closed pairs first, then unterminated openers. -/
def processThinkTags (text : List Char) : List Char :=
  gReplace tryThink2 (gReplace tryThink1 text)

/-! ## Placeholder extraction and restoration -/

/-- The placeholder `%%<CATEGORY>_<idx>%%`. -/
def tokenStr (cat : List Char) (idx : Nat) : List Char :=
  '%' :: '%' :: (cat ++ '_' :: (natDigits idx ++ ['%', '%']))

/-- Stateful global replace used by the `extract*` functions: each match
is appended to the item list and replaced by its indexed token.  `idx`
starts at the store's current length, as in the source. -/
def scanExtract (m : List Char → Option (List Char × List Char))
    (cat : List Char) : Nat → Nat → List Char → List Char × List (List Char)
  | _, _, [] => ([], [])
  | 0, _, cs => (cs, [])
  | f + 1, idx, c :: rest =>
    match m (c :: rest) with
    | some (mt, rem) =>
      match scanExtract m cat f (idx + 1) rem with
      | (out, items) => (tokenStr cat idx ++ out, mt :: items)
    | none =>
      match scanExtract m cat f idx rest with
      | (out, items) => (c :: out, items)

/-- JS array lookup `store[ds]` with a digit-string key: an element is
found exactly when `ds` is the canonical decimal form of an index below
the length; otherwise the lookup is `undefined`. -/
def storeGet (store : List (List Char)) (ds : List Char) : Option (List Char) :=
  let n := dsToNat ds
  if ds = natDigits n ∧ n < store.length then store[n]? else none

/-- String coercion of `undefined`, which a replace callback returning an
out-of-bounds element inserts into the output. -/
def undefinedStr : List Char := "undefined".data

/-- Head match of `%%<CATEGORY>_(\d+)%%` with the callback
`(_, index) => store[index]`. -/
def tryRestore (cat : List Char) (store : List (List Char)) :
    List Char → Option (List Char × List Char)
  | '%' :: '%' :: rest =>
    match stripPrefixL cat rest with
    | some ('_' :: r2) =>
      match r2.span Char.isDigit with
      | (ds, r3) =>
        if ds = [] then none
        else
          match r3 with
          | '%' :: '%' :: r4 => some ((storeGet store ds).getD undefinedStr, r4)
          | _ => none
    | _ => none
  | _ => none

/-- Earliest ```` ``` ```` terminator of a lazy `[\s\S]*?` code-block body. -/
def splitAtTripleTick : List Char → Option (List Char × List Char)
  | [] => none
  | c :: rest =>
    if startsWithL ['`', '`', '`'] (c :: rest) then some ([], rest.drop 2)
    else (splitAtTripleTick rest).map fun p => (c :: p.1, p.2)

def matchCodeBlock : List Char → Option (List Char × List Char)
  | '`' :: '`' :: '`' :: rest =>
    (splitAtTripleTick rest).map fun p =>
      ('`' :: '`' :: '`' :: (p.1 ++ ['`', '`', '`']), p.2)
  | _ => none

/-- Head match of `` `[^`\n]+` ``. -/
def matchInlineCode : List Char → Option (List Char × List Char)
  | '`' :: rest =>
    match rest.span (fun c => !(c = '`' || c = '\n')) with
    | (content, r) =>
      if content = [] then none
      else
        match r with
        | '`' :: r2 => some ('`' :: (content ++ ['`']), r2)
        | _ => none
  | _ => none

/-- Head match of `\[([^\]]+)\]\((?!cite:)([^)]+)\)`. -/
def matchLink : List Char → Option (List Char × List Char)
  | '[' :: rest =>
    match rest.span (fun c => !(c = ']')) with
    | (label, r) =>
      if label = [] then none
      else
        match r with
        | ']' :: '(' :: r2 =>
          if startsWithL "cite:".data r2 then none
          else
            match r2.span (fun c => !(c = ')')) with
            | (url, r3) =>
              if url = [] then none
              else
                match r3 with
                | ')' :: r4 => some ('[' :: (label ++ ']' :: '(' :: (url ++ [')'])), r4)
                | _ => none
        | _ => none
  | _ => none

def extractCodeBlocks (text : List Char) (store : List (List Char)) :
    List Char × List (List Char) :=
  match scanExtract matchCodeBlock "CODE_BLOCK".data text.length store.length text with
  | (out, items) => (out, store ++ items)

def extractInlineCode (text : List Char) (store : List (List Char)) :
    List Char × List (List Char) :=
  match scanExtract matchInlineCode "INLINE_CODE".data text.length store.length text with
  | (out, items) => (out, store ++ items)

def extractLinks (text : List Char) (store : List (List Char)) :
    List Char × List (List Char) :=
  match scanExtract matchLink "LINK_EXPRESSION".data text.length store.length text with
  | (out, items) => (out, store ++ items)

def restoreCodeBlocks (text : List Char) (store : List (List Char)) : List Char :=
  gReplace (tryRestore "CODE_BLOCK".data store) text

def restoreInlineCode (text : List Char) (store : List (List Char)) : List Char :=
  gReplace (tryRestore "INLINE_CODE".data store) text

def restoreLinks (text : List Char) (store : List (List Char)) : List Char :=
  gReplace (tryRestore "LINK_EXPRESSION".data store) text

def restoreMathExpressions (html : List Char) (store : List (List Char)) : List Char :=
  gReplace (tryRestore "MATH_EXPRESSION".data store) html

/-! ## `textMayContainMath` -/

/-- Number of matches of `(^|[^\\])\$` under the JS global scan (the
engine consumes each match, so adjacent `$`s can share at most one
match).  The `Bool` argument records whether the scan is at the very
start of the string, where `^` can apply. -/
def dollarScanAux : Bool → List Char → Nat
  | _, [] => 0
  | first, [c] => if first ∧ c = '$' then 1 else 0
  | first, c :: d :: r =>
    if first ∧ c = '$' then 1 + dollarScanAux false (d :: r)
    else if c ≠ '\\' ∧ d = '$' then 1 + dollarScanAux false r
    else dollarScanAux false (d :: r)

def dollarScan (s : List Char) : Nat := dollarScanAux true s

/-- `textMayContainMath`. -/
def textMayContainMath (text : List Char) : Bool :=
  if text = [] then false
  else if containsL "\\(".data text || containsL "\\[".data text ||
      containsL "$$".data text || containsL "\\begin\x7b".data text ||
      containsL "\\boxed\x7b".data text then true
  else decide (2 ≤ dollarScan text)

def unescapedDollarAux : Char → List Char → Nat
  | _, [] => 0
  | prev, c :: rest =>
    (if c = '$' ∧ prev ≠ '\\' then 1 else 0) + unescapedDollarAux c rest

/-- The number of `$` characters that are unescaped in the plain sense:
at the start of the string or not immediately preceded by a backslash. -/
def unescapedDollarCount : List Char → Nat
  | [] => 0
  | c :: rest => (if c = '$' then 1 else 0) + unescapedDollarAux c rest

/-! ## `extractMathExpressions`

The alternation
`(\\\\\([^]+?\\\\\))|(\\\([^]+?\\\))|(\\\[[\s\S]+?\\\])|(\$\$[\s\S]+?\$\$)|(\$(?!\$)[^\n]*?\$)`
tried left to right, followed by the callback's in-span rewrites. -/

/-- Earliest occurrence of the two-character terminator `x y`;
content may contain anything (the `[^]`/`[\s\S]` classes). -/
def splitAt2 (x y : Char) : List Char → Option (List Char × List Char)
  | a :: b :: rest =>
    if a = x ∧ b = y then some ([], rest)
    else (splitAt2 x y (b :: rest)).map fun p => (a :: p.1, p.2)
  | _ => none

/-- Earliest occurrence of the three-character terminator `x y z`. -/
def splitAt3 (x y z : Char) : List Char → Option (List Char × List Char)
  | a :: b :: c :: rest =>
    if a = x ∧ b = y ∧ c = z then some ([], rest)
    else (splitAt3 x y z (b :: c :: rest)).map fun p => (a :: p.1, p.2)
  | _ => none

/-- Earliest unescaped-`$` terminator for the inline `$...$` branch;
content is `[^\n]*?`, so a newline aborts. -/
def splitAtDollar : List Char → Option (List Char × List Char)
  | '$' :: rest => some ([], rest)
  | c :: rest =>
    if c = '\n' then none
    else (splitAtDollar rest).map fun p => (c :: p.1, p.2)
  | [] => none

def mathBr1 : List Char → Option (List Char × List Char)
  | '\\' :: '\\' :: '(' :: c0 :: rest =>
    (splitAt3 '\\' '\\' ')' rest).map fun p =>
      ('\\' :: '\\' :: '(' :: (c0 :: p.1 ++ ['\\', '\\', ')']), p.2)
  | _ => none

def mathBr2 : List Char → Option (List Char × List Char)
  | '\\' :: '(' :: c0 :: rest =>
    (splitAt2 '\\' ')' rest).map fun p =>
      ('\\' :: '(' :: (c0 :: p.1 ++ ['\\', ')']), p.2)
  | _ => none

def mathBr3 : List Char → Option (List Char × List Char)
  | '\\' :: '[' :: c0 :: rest =>
    (splitAt2 '\\' ']' rest).map fun p =>
      ('\\' :: '[' :: (c0 :: p.1 ++ ['\\', ']']), p.2)
  | _ => none

def mathBr4 : List Char → Option (List Char × List Char)
  | '$' :: '$' :: c0 :: rest =>
    (splitAt2 '$' '$' rest).map fun p =>
      ('$' :: '$' :: (c0 :: p.1 ++ ['$', '$']), p.2)
  | _ => none

def mathBr5 : List Char → Option (List Char × List Char)
  | '$' :: c0 :: rest =>
    if c0 = '$' ∨ c0 = '\n' then none
    else (splitAtDollar rest).map fun p => ('$' :: c0 :: (p.1 ++ ['$']), p.2)
  | _ => none

/-- The alternation, tried left to right at the current position. -/
def rawMathMatch (cs : List Char) : Option (List Char × List Char) :=
  match mathBr1 cs with
  | some r => some r
  | none =>
    match mathBr2 cs with
    | some r => some r
    | none =>
      match mathBr3 cs with
      | some r => some r
      | none =>
        match mathBr4 cs with
        | some r => some r
        | none => mathBr5 cs

/-- `\\div\b` → `' ÷ '`. -/
def tryDivB : List Char → Option (List Char × List Char)
  | '\\' :: 'd' :: 'i' :: 'v' :: rest =>
    if (match rest with | [] => true | c :: _ => !isWordChar c) then
      some ([' ', Char.ofNat 0xf7, ' '], rest)
    else none
  | _ => none

def wsRunLen (cs : List Char) : Nat := (cs.takeWhile isJsWs).length

/-- Tail `\s*\\+\]` of the display-spacing rewrite: greedy whitespace,
then one or more backslashes, then `]`. -/
def t2Tail (afterB : List Char) : Option (List Char) :=
  let afterC := afterB.dropWhile isJsWs
  let dpart := afterC.takeWhile (fun c => c = '\\')
  let afterD := afterC.dropWhile (fun c => c = '\\')
  if dpart = [] then none
  else
    match afterD with
    | ']' :: r => some r
    | _ => none

/-- `\\\[\s*(.+?)\s*\\+\]` → `\[ $1 \]`: greedy leading `\s*` (tried
longest first), lazy `.+?` (shortest first, no line terminators). -/
def tryT2 : List Char → Option (List Char × List Char)
  | '\\' :: '[' :: rest =>
    ((List.range (wsRunLen rest + 1)).reverse.findSome? fun j =>
      let afterA := rest.drop j
      (List.range afterA.length).findSome? fun i =>
        let b := afterA.take (i + 1)
        if b.all (fun c => !isLineTerm c) then
          match t2Tail (afterA.drop (i + 1)) with
          | some after => some (['\\', '[', ' '] ++ b ++ [' ', '\\', ']'], after)
          | none => none
        else none)
  | _ => none

/-- Tail `\s*\\<p>` with a literal final character. -/
def t3Tail (p : Char) (afterB : List Char) : Option (List Char) :=
  match afterB.dropWhile isJsWs with
  | '\\' :: q :: r => if q = p then some r else none
  | _ => none

/-- `\\\(\s*(.+?)\s*\\）` → `\( $1 \)`. -/
def tryT3 : List Char → Option (List Char × List Char)
  | '\\' :: '(' :: rest =>
    ((List.range (wsRunLen rest + 1)).reverse.findSome? fun j =>
      let afterA := rest.drop j
      (List.range afterA.length).findSome? fun i =>
        let b := afterA.take (i + 1)
        if b.all (fun c => !isLineTerm c) then
          match t3Tail fwRParen (afterA.drop (i + 1)) with
          | some after => some (['\\', '(', ' '] ++ b ++ [' ', '\\', ')'], after)
          | none => none
        else none)
  | _ => none

/-- `\\\(\s*(.+?)\s*\\，` → `\( $1 \)，`. -/
def tryT4 : List Char → Option (List Char × List Char)
  | '\\' :: '(' :: rest =>
    ((List.range (wsRunLen rest + 1)).reverse.findSome? fun j =>
      let afterA := rest.drop j
      (List.range afterA.length).findSome? fun i =>
        let b := afterA.take (i + 1)
        if b.all (fun c => !isLineTerm c) then
          match t3Tail fwComma (afterA.drop (i + 1)) with
          | some after =>
            some (['\\', '(', ' '] ++ b ++ [' ', '\\', ')', fwComma], after)
          | none => none
        else none)
  | _ => none

def tryLt : List Char → Option (List Char × List Char)
  | '<' :: rest => some ("&lt;".data, rest)
  | _ => none

def tryGt : List Char → Option (List Char × List Char)
  | '>' :: rest => some ("&gt;".data, rest)
  | _ => none

/-- `%\s` → `''`. -/
def tryPctWs : List Char → Option (List Char × List Char)
  | '%' :: w :: rest => if isJsWs w then some ([], rest) else none
  | _ => none

def isAsciiLetter (c : Char) : Bool :=
  ('A' ≤ c && c ≤ 'Z') || ('a' ≤ c && c ≤ 'z')

def isAsciiAlnum (c : Char) : Bool :=
  isAsciiLetter c || ('0' ≤ c && c ≤ '9')

/-- `\\bm\{([^{}]+)\}` → `\boldsymbol{$1}`. -/
def tryBmBrace : List Char → Option (List Char × List Char)
  | '\\' :: 'b' :: 'm' :: '{' :: rest =>
    match rest.span (fun c => !(c = '{' || c = '}')) with
    | (content, r) =>
      if content = [] then none
      else
        match r with
        | '}' :: r2 => some ("\\boldsymbol\x7b".data ++ content ++ ['}'], r2)
        | _ => none
  | _ => none

/-- `\\bm\s*(\\[A-Za-z]+|[A-Za-z0-9])` → `\boldsymbol{$1}`. -/
def tryBmLoose : List Char → Option (List Char × List Char)
  | '\\' :: 'b' :: 'm' :: rest =>
    match rest.dropWhile isJsWs with
    | '\\' :: r2 =>
      match r2.span isAsciiLetter with
      | (letters, r3) =>
        if letters = [] then none
        else some ("\\boldsymbol\x7b".data ++ '\\' :: (letters ++ ['}']), r3)
    | c :: r2 =>
      if isAsciiAlnum c then some ("\\boldsymbol\x7b".data ++ [c, '}'], r2)
      else none
    | [] => none
  | _ => none

/-- `\\coloneqq\b` → `\mathrel{:=}`. -/
def tryColoneqq : List Char → Option (List Char × List Char)
  | '\\' :: 'c' :: 'o' :: 'l' :: 'o' :: 'n' :: 'e' :: 'q' :: 'q' :: rest =>
    if (match rest with | [] => true | c :: _ => !isWordChar c) then
      some ("\\mathrel{:=}".data, rest)
    else none
  | _ => none

/-- The in-span rewrites of the extraction callback, in source order,
then the display-container wrapper.  (The bare-parenthesis check only
emits a console warning and leaves the span unchanged, so it does not
appear here.) -/
def mathTransform (m : List Char) : List Char :=
  let m1 := gReplace tryDivB m
  let m2 := gReplace tryT2 m1
  let m3 := gReplace tryT3 m2
  let m4 := gReplace tryT4 m3
  let m5 := gReplace tryLt m4
  let m6 := gReplace tryGt m5
  let m7 := gReplace tryPctWs m6
  let m8 := gReplace tryBmBrace m7
  let m9 := gReplace tryBmLoose m8
  let m10 := gReplace tryColoneqq m9
  if startsWithL "\\[".data m10 || startsWithL "$$".data m10 then
    "<div class=\"math-display-container\">".data ++ m10 ++ "</div>".data
  else m10

/-- The matcher handed to the registry: raw span matched, transformed
span stored. -/
def mathMatcher (cs : List Char) : Option (List Char × List Char) :=
  (rawMathMatch cs).map fun p => (mathTransform p.1, p.2)

def extractMathExpressions (text : List Char) (store : List (List Char)) :
    List Char × List (List Char) :=
  match scanExtract mathMatcher "MATH_EXPRESSION".data text.length store.length text with
  | (out, items) => (out, store ++ items)

/-! ## General list lemmas used by the proofs -/

theorem stripPrefixL_append (p s : List Char) : stripPrefixL p (p ++ s) = some s := by
  induction p with
  | nil => rfl
  | cons c cs ih => simp [stripPrefixL, ih]

theorem stripPrefixL_eq : ∀ p s r, stripPrefixL p s = some r → s = p ++ r := by
  intro p
  induction p with
  | nil => intro s r h; simpa [stripPrefixL] using h
  | cons c cs ih =>
    intro s r h
    match s with
    | [] => simp [stripPrefixL] at h
    | d :: s' =>
      simp only [stripPrefixL] at h
      by_cases hcd : c = d
      · subst hcd
        simp only [if_pos rfl] at h
        simpa using ih s' r h
      · simp [hcd] at h

theorem takeWhile_append_of {p : Char → Bool} {xs : List Char} {y : Char} {ys : List Char}
    (hxs : ∀ c ∈ xs, p c = true) (hy : p y = false) :
    (xs ++ y :: ys).takeWhile p = xs := by
  induction xs with
  | nil => simp [List.takeWhile, hy]
  | cons c cs ih =>
    have hc := hxs c (List.mem_cons_self c cs)
    simp only [List.cons_append, List.takeWhile_cons, hc, if_true]
    rw [ih (fun d hd => hxs d (List.mem_cons_of_mem c hd))]

theorem dropWhile_append_of {p : Char → Bool} {xs : List Char} {y : Char} {ys : List Char}
    (hxs : ∀ c ∈ xs, p c = true) (hy : p y = false) :
    (xs ++ y :: ys).dropWhile p = y :: ys := by
  induction xs with
  | nil => simp [List.dropWhile, hy]
  | cons c cs ih =>
    have hc := hxs c (List.mem_cons_self c cs)
    simp only [List.cons_append, List.dropWhile_cons, hc, if_true]
    exact ih (fun d hd => hxs d (List.mem_cons_of_mem c hd))

theorem span_append_of {p : Char → Bool} {xs : List Char} {y : Char} {ys : List Char}
    (hxs : ∀ c ∈ xs, p c = true) (hy : p y = false) :
    (xs ++ y :: ys).span p = (xs, y :: ys) := by
  rw [List.span_eq_take_drop, takeWhile_append_of hxs hy,
    dropWhile_append_of hxs hy]

theorem span_all_of {p : Char → Bool} {xs : List Char} (hxs : ∀ c ∈ xs, p c = true) :
    (xs.span p) = (xs, []) := by
  rw [List.span_eq_take_drop]
  rw [List.takeWhile_eq_self_iff.mpr hxs, List.dropWhile_eq_nil_iff.mpr hxs]

theorem span_parts {p : Char → Bool} {l a b : List Char} (h : l.span p = (a, b)) :
    l = a ++ b := by
  rw [List.span_eq_take_drop] at h
  cases h
  exact (List.takeWhile_append_dropWhile ..).symm

/-! ## Restoration lemmas -/

theorem storeGet_append (s0 items : List (List Char)) (j : Nat) (hj : j < items.length) :
    storeGet (s0 ++ items) (natDigits (s0.length + j)) = items[j]? := by
  unfold storeGet
  rw [dsToNat_natDigits]
  have hlen : s0.length + j < (s0 ++ items).length := by
    simp [List.length_append]; omega
  rw [if_pos ⟨rfl, hlen⟩]
  rw [List.getElem?_append_right (by omega)]
  congr 1
  omega

theorem storeGet_oob (store : List (List Char)) (i : Nat) (h : store.length ≤ i) :
    storeGet store (natDigits i) = none := by
  unfold storeGet
  rw [dsToNat_natDigits]
  rw [if_neg]
  rintro ⟨-, hlt⟩
  omega

theorem tryRestore_token (cat : List Char) (store : List (List Char)) (idx : Nat)
    (out' : List Char) :
    tryRestore cat store (tokenStr cat idx ++ out') =
      some ((storeGet store (natDigits idx)).getD undefinedStr, out') := by
  have hshape : tokenStr cat idx ++ out' =
      '%' :: '%' :: (cat ++ '_' :: (natDigits idx ++ '%' :: '%' :: out')) := by
    simp [tokenStr]
  rw [hshape]
  have hspan : (natDigits idx ++ '%' :: '%' :: out').span Char.isDigit =
      (natDigits idx, '%' :: '%' :: out') :=
    span_append_of (fun c hc => natDigits_all_digits idx c hc) (by decide)
  simp only [tryRestore, stripPrefixL_append, hspan]
  rw [if_neg (natDigits_ne_nil idx)]

theorem tryRestore_consuming (cat : List Char) (store : List (List Char)) :
    Consuming (tryRestore cat store) := by
  intro cs rep rem h
  unfold tryRestore at h
  split at h
  case _ rest =>
    split at h
    case _ r1 r2 hsp =>
      split at h
      case _ ds r3 hspan =>
        split at h
        · simp at h
        case _ hds =>
          split at h
          case _ r4 =>
            have e1 : rest = cat ++ '_' :: r2 := stripPrefixL_eq _ _ _ hsp
            have e2 : r2 = ds ++ ('%' :: '%' :: r4) := span_parts hspan
            have hrem : rem = r4 := by
              injection h with h'
              exact (Prod.mk.injEq .. ▸ h').2.symm ▸ rfl
            subst hrem
            simp [e1, e2, List.length_append]
            omega
          · simp at h
    · simp at h
  · simp at h

/-- `gReplace` on a text consisting of exactly one match. -/
theorem gReplace_total_match {t : List Char → Option (List Char × List Char)}
    {cs rep : List Char} (ht : Consuming t) (h : t cs = some (rep, []))
    (hcs : cs ≠ []) : gReplace t cs = rep := by
  match cs with
  | [] => exact absurd rfl hcs
  | c :: rest =>
    rw [gReplace_cons_some ht h, gReplace_nil, List.append_nil]

/-! ## Claim C5 — `processBoldFormatting` idempotence (code bug)

`processBoldFormatting` is not idempotent.  On `": **a**:"`,
pass 1 gives `":**a**:"`, pass 7 then gives `": **a** :"`; running the
fixer again, pass 1 rewrites the freshly created `: **` to `:**`, giving
`":**a** :"`, a third distinct string.  The spec requires idempotence
("Must be idempotent when run twice on its own output"), so the code
contradicts the specified intent on this input. -/

/-- C5: the bold-format fixer is *not* idempotent: on the failing input
`": **a**:"` a second run produces a different string than the first
(`": **a** :"` vs `":**a** :"`), contradicting the claim that
`processBoldFormatting(processBoldFormatting(t)) == processBoldFormatting(t)`
for every `t`. -/
theorem processBoldFormatting_not_idempotent :
    processBoldFormatting (processBoldFormatting ": **a**:".data) ≠
        processBoldFormatting ": **a**:".data ∧
    processBoldFormatting ": **a**:".data = ": **a** :".data ∧
    processBoldFormatting (processBoldFormatting ": **a**:".data) = ":**a** :".data := by
  refine ⟨?_, by decide, by decide⟩
  decide

/-! ## Claim C6 — out-of-bounds restoration -/

/-- C6 counterexample: restoring `%%CODE_BLOCK_0%%` against an empty
store neither leaves the token in place nor yields the empty string —
the callback returns `undefined`, which string-coerces to the literal
text `undefined`. -/
theorem restore_oob_counterexample :
    restoreCodeBlocks "%%CODE_BLOCK_0%%".data [] = "undefined".data ∧
    restoreCodeBlocks "%%CODE_BLOCK_0%%".data [] ≠ "%%CODE_BLOCK_0%%".data ∧
    restoreCodeBlocks "%%CODE_BLOCK_0%%".data [] ≠ [] := by
  refine ⟨by decide, by decide, by decide⟩

/-- C6 amended: restoring a placeholder token whose index is out of
bounds for the store never throws (the functions are total) and replaces
the token with the literal text `undefined` (the string coercion of the
`undefined` array element), both for code blocks and for math
expressions. -/
theorem restore_oob_yields_undefined (store : List (List Char)) (i : Nat)
    (h : store.length ≤ i) :
    restoreCodeBlocks (tokenStr "CODE_BLOCK".data i) store = undefinedStr ∧
    restoreMathExpressions (tokenStr "MATH_EXPRESSION".data i) store = undefinedStr := by
  constructor
  · have htok := tryRestore_token "CODE_BLOCK".data store i []
    rw [List.append_nil, storeGet_oob store i h] at htok
    exact gReplace_total_match (tryRestore_consuming _ _) htok (by simp [tokenStr])
  · have htok := tryRestore_token "MATH_EXPRESSION".data store i []
    rw [List.append_nil, storeGet_oob store i h] at htok
    exact gReplace_total_match (tryRestore_consuming _ _) htok (by simp [tokenStr])

/-- C6 witness: the amended claim at store `[]`, index `0`. -/
theorem restore_oob_yields_undefined_witness :
    restoreCodeBlocks (tokenStr "CODE_BLOCK".data 0) [] = undefinedStr ∧
    restoreMathExpressions (tokenStr "MATH_EXPRESSION".data 0) [] = undefinedStr :=
  restore_oob_yields_undefined [] 0 (by decide)

/-! ## Claim C7 — `encodeCitationPayload` never throws -/

/-- C7: payload normalization is total (never throws): it trims the
payload; when the trimmed payload percent-decodes, the result is the
re-encoding of the decoded form; when decoding fails, the result is the
direct percent-encoding of the raw trimmed payload. -/
theorem encodeCitationPayload_spec (s : List Char) :
    (∀ d, decodeURIComponentOpt (jsTrim s) = some d →
      encodeCitationPayload s = encodeURIComponent d) ∧
    (decodeURIComponentOpt (jsTrim s) = none →
      encodeCitationPayload s = encodeURIComponent (jsTrim s)) := by
  constructor
  · intro d hd
    unfold encodeCitationPayload
    by_cases hv : jsTrim s = []
    · rw [hv] at hd
      have hdnil : d = [] := by
        have : decodeURIComponentOpt ([] : List Char) = some [] := rfl
        rw [this] at hd
        exact (Option.some.injEq .. ▸ hd).symm
      rw [if_pos hv, hdnil]
      rfl
    · rw [if_neg hv, hd]
  · intro hn
    unfold encodeCitationPayload
    by_cases hv : jsTrim s = []
    · rw [hv] at hn
      exact absurd hn (by simp [decodeURIComponentOpt, decodeURIAux])
    · rw [if_neg hv, hn]

/-- C7 witness: a decodable payload re-encodes its decoded form, and a
malformed payload (`"%E4%"`) falls back to direct encoding. -/
theorem encodeCitationPayload_spec_witness :
    encodeCitationPayload " a%20b ".data = encodeURIComponent "a b".data ∧
    encodeCitationPayload "%E4%".data = encodeURIComponent (jsTrim "%E4%".data) :=
  ⟨(encodeCitationPayload_spec " a%20b ".data).1 "a b".data (by decide),
   (encodeCitationPayload_spec "%E4%".data).2 (by decide)⟩

/-! ## Claim C10 — `decodeCitation` never throws -/

/-- C10: `decodeCitation` is total: it returns the percent-decoded string
when decoding succeeds and returns its input unchanged when decoding
fails. -/
theorem decodeCitation_spec (s : List Char) :
    (∀ d, decodeURIComponentOpt s = some d → decodeCitation s = d) ∧
    (decodeURIComponentOpt s = none → decodeCitation s = s) := by
  constructor
  · intro d hd
    simp [decodeCitation, hd]
  · intro hn
    simp [decodeCitation, hn]

/-- C10 witness: a valid UTF-8 escape decodes; a truncated escape is
returned unchanged. -/
theorem decodeCitation_spec_witness :
    decodeCitation "%E4%B8%AD".data = "中".data ∧
    decodeCitation "%E4%".data = "%E4%".data :=
  ⟨(decodeCitation_spec "%E4%B8%AD".data).1 "中".data (by decide),
   (decodeCitation_spec "%E4%".data).2 (by decide)⟩

/-! ## Claim C3 — the math-detection heuristic (counterexample part) -/

/-- C3 counterexample: the input `"\($"` contains exactly one unescaped
`$` yet `textMayContainMath` returns `true` (the explicit-delimiter test
`\(` fires first), refuting "returns false whenever the string contains
exactly one unescaped `$`". -/
theorem textMayContainMath_counterexample :
    unescapedDollarCount "\\($".data = 1 ∧
    textMayContainMath "\\($".data = true := by
  refine ⟨by decide, by decide⟩

/-- The regex scan counts at most the semantically unescaped `$`s:
every match's final `$` sits at an unescaped position, and matches
consume disjoint spans. -/
theorem dollarScanAux_le :
    ∀ n cs, cs.length ≤ n →
      (∀ prev, dollarScanAux false cs ≤ unescapedDollarAux prev cs) ∧
      dollarScanAux true cs ≤ unescapedDollarCount cs := by
  intro n
  induction n with
  | zero =>
    intro cs hcs
    have hnil : cs = [] := List.length_eq_zero.mp (by omega)
    subst hnil
    exact ⟨fun _ => le_refl 0, le_refl 0⟩
  | succ n ih =>
    intro cs hcs
    match cs with
    | [] => exact ⟨fun _ => le_refl 0, le_refl 0⟩
    | [c] =>
      constructor
      · intro prev
        simp [dollarScanAux]
      · by_cases hc : c = '$' <;>
          simp [dollarScanAux, unescapedDollarCount, unescapedDollarAux, hc]
    | c :: d :: r =>
      have hlen1 : (d :: r).length ≤ n := by simp at hcs ⊢; omega
      have hlen2 : r.length ≤ n := by simp at hcs ⊢; omega
      constructor
      · intro prev
        by_cases hcd : c ≠ '\\' ∧ d = '$'
        · obtain ⟨hcb, rfl⟩ := hcd
          have hscan : dollarScanAux false (c :: '$' :: r) = 1 + dollarScanAux false r := by
            simp [dollarScanAux, hcb]
          have e1 : unescapedDollarAux prev (c :: '$' :: r) =
              (if c = '$' ∧ prev ≠ '\\' then 1 else 0) + unescapedDollarAux c ('$' :: r) := rfl
          have e2 : unescapedDollarAux c ('$' :: r) = 1 + unescapedDollarAux '$' r := by
            simp [unescapedDollarAux, hcb]
          rw [hscan, e1, e2]
          have := (ih r hlen2).1 '$'
          omega
        · have hscan : dollarScanAux false (c :: d :: r) = dollarScanAux false (d :: r) := by
            simp [dollarScanAux, hcd]
          have e1 : unescapedDollarAux prev (c :: d :: r) =
              (if c = '$' ∧ prev ≠ '\\' then 1 else 0) + unescapedDollarAux c (d :: r) := rfl
          rw [hscan, e1]
          have := (ih (d :: r) hlen1).1 c
          omega
      · by_cases hc : c = '$'
        · have hscan : dollarScanAux true (c :: d :: r) = 1 + dollarScanAux false (d :: r) := by
            simp [dollarScanAux, hc]
          have hsem : unescapedDollarCount (c :: d :: r) =
              1 + unescapedDollarAux c (d :: r) := by
            simp [unescapedDollarCount, hc]
          rw [hscan, hsem]
          have := (ih (d :: r) hlen1).1 c
          omega
        · have hsem : unescapedDollarCount (c :: d :: r) = unescapedDollarAux c (d :: r) := by
            simp [unescapedDollarCount, hc]
          by_cases hcd : c ≠ '\\' ∧ d = '$'
          · obtain ⟨hcb, rfl⟩ := hcd
            have hscan : dollarScanAux true (c :: '$' :: r) = 1 + dollarScanAux false r := by
              simp [dollarScanAux, hc, hcb]
            have hsem2 : unescapedDollarAux c ('$' :: r) = 1 + unescapedDollarAux '$' r := by
              simp [unescapedDollarAux, hcb]
            rw [hscan, hsem, hsem2]
            have := (ih r hlen2).1 '$'
            omega
          · have hscan : dollarScanAux true (c :: d :: r) = dollarScanAux false (d :: r) := by
              simp [dollarScanAux, hc, hcd]
            rw [hscan, hsem]
            exact (ih (d :: r) hlen1).1 c

theorem containsL_cons_false {p : List Char} {c : Char} {cs : List Char}
    (h : containsL p (c :: cs) = false) :
    startsWithL p (c :: cs) = false ∧ containsL p cs = false := by
  simpa [containsL, Bool.or_eq_false_iff] using h

theorem startsWithL_dd_false {c d : Char} {r : List Char}
    (h : startsWithL ['$', '$'] (c :: d :: r) = false) : ¬(c = '$' ∧ d = '$') := by
  simp [startsWithL] at h
  rintro ⟨rfl, rfl⟩
  exact absurd (h rfl) (by simp)

/-- With no adjacent `$$` in the text, the regex scan counts exactly the
unescaped `$`s. -/
theorem dollarScanAux_eq_of_noadj :
    ∀ n cs, cs.length ≤ n → containsL ['$', '$'] cs = false →
      (∀ prev, prev = '\\' ∨ cs.head? ≠ some '$' →
        dollarScanAux false cs = unescapedDollarAux prev cs) ∧
      dollarScanAux true cs = unescapedDollarCount cs := by
  intro n
  induction n with
  | zero =>
    intro cs hcs _
    have hnil : cs = [] := List.length_eq_zero.mp (by omega)
    subst hnil
    exact ⟨fun _ _ => rfl, rfl⟩
  | succ n ih =>
    intro cs hcs hna
    match cs with
    | [] => exact ⟨fun _ _ => rfl, rfl⟩
    | [c] =>
      constructor
      · intro prev hprev
        by_cases hc : c = '$'
        · rcases hprev with hprev | hprev
          · simp [dollarScanAux, unescapedDollarAux, hc, hprev]
          · exact absurd (by simp [hc]) hprev
        · simp [dollarScanAux, unescapedDollarAux, hc]
      · by_cases hc : c = '$' <;>
          simp [dollarScanAux, unescapedDollarCount, unescapedDollarAux, hc]
    | c :: d :: r =>
      obtain ⟨hsw, hna'⟩ := containsL_cons_false hna
      have hnadj := startsWithL_dd_false hsw
      have hlen1 : (d :: r).length ≤ n := by simp at hcs ⊢; omega
      have hlen2 : r.length ≤ n := by simp at hcs ⊢; omega
      have hna'' : containsL ['$', '$'] r = false := (containsL_cons_false hna').2
      constructor
      · intro prev hprev
        by_cases hc : c = '$'
        · have hprev' : prev = '\\' := by
            rcases hprev with h | h
            · exact h
            · exact absurd (by simp [hc]) h
          have hd : d ≠ '$' := fun hd => hnadj ⟨hc, hd⟩
          have hscan : dollarScanAux false (c :: d :: r) = dollarScanAux false (d :: r) := by
            simp [dollarScanAux, hd]
          have hsem : unescapedDollarAux prev (c :: d :: r) =
              unescapedDollarAux c (d :: r) := by
            simp [unescapedDollarAux, hprev']
          rw [hscan, hsem]
          exact (ih (d :: r) hlen1 hna').1 c (Or.inr (by simp [hd]))
        · by_cases hcd : c ≠ '\\' ∧ d = '$'
          · obtain ⟨hcb, rfl⟩ := hcd
            have hscan : dollarScanAux false (c :: '$' :: r) = 1 + dollarScanAux false r := by
              simp [dollarScanAux, hcb]
            have hr : r.head? ≠ some '$' := by
              obtain ⟨hsw', -⟩ := containsL_cons_false hna'
              match r with
              | [] => simp
              | e :: r' =>
                have := startsWithL_dd_false hsw'
                simp only [List.head?_cons, ne_eq, Option.some.injEq]
                intro he
                exact this ⟨rfl, he⟩
            have hsem : unescapedDollarAux prev (c :: '$' :: r) =
                1 + unescapedDollarAux '$' r := by
              simp [unescapedDollarAux, hc, hcb]
            rw [hscan, hsem]
            rw [(ih r hlen2 hna'').1 '$' (Or.inr hr)]
          · have hscan : dollarScanAux false (c :: d :: r) = dollarScanAux false (d :: r) := by
              simp [dollarScanAux, hcd]
            have hsem : unescapedDollarAux prev (c :: d :: r) =
                unescapedDollarAux c (d :: r) := by
              simp [unescapedDollarAux, hc]
            rw [hscan, hsem]
            have hdis : c = '\\' ∨ (d :: r).head? ≠ some '$' := by
              by_cases hcc : c = '\\'
              · exact Or.inl hcc
              · right
                simp only [List.head?_cons, ne_eq, Option.some.injEq]
                intro hd
                exact hcd ⟨hcc, hd⟩
            exact (ih (d :: r) hlen1 hna').1 c hdis
      · by_cases hc : c = '$'
        · have hd : d ≠ '$' := fun hd => hnadj ⟨hc, hd⟩
          have hscan : dollarScanAux true (c :: d :: r) = 1 + dollarScanAux false (d :: r) := by
            simp [dollarScanAux, hc]
          have hsem : unescapedDollarCount (c :: d :: r) =
              1 + unescapedDollarAux c (d :: r) := by
            simp [unescapedDollarCount, hc]
          rw [hscan, hsem]
          have := (ih (d :: r) hlen1 hna').1 c (Or.inr (by simp [hd]))
          omega
        · have hsem : unescapedDollarCount (c :: d :: r) = unescapedDollarAux c (d :: r) := by
            simp [unescapedDollarCount, hc]
          by_cases hcd : c ≠ '\\' ∧ d = '$'
          · obtain ⟨hcb, rfl⟩ := hcd
            have hscan : dollarScanAux true (c :: '$' :: r) = 1 + dollarScanAux false r := by
              simp [dollarScanAux, hc, hcb]
            have hr : r.head? ≠ some '$' := by
              obtain ⟨hsw', -⟩ := containsL_cons_false hna'
              match r with
              | [] => simp
              | e :: r' =>
                have := startsWithL_dd_false hsw'
                simp only [List.head?_cons, ne_eq, Option.some.injEq]
                intro he
                exact this ⟨rfl, he⟩
            have hsem2 : unescapedDollarAux c ('$' :: r) = 1 + unescapedDollarAux '$' r := by
              simp [unescapedDollarAux, hcb]
            rw [hscan, hsem, hsem2]
            rw [(ih r hlen2 hna'').1 '$' (Or.inr hr)]
          · have hscan : dollarScanAux true (c :: d :: r) = dollarScanAux false (d :: r) := by
              simp [dollarScanAux, hc, hcd]
            rw [hscan, hsem]
            have hdis : c = '\\' ∨ (d :: r).head? ≠ some '$' := by
              by_cases hcc : c = '\\'
              · exact Or.inl hcc
              · right
                simp only [List.head?_cons, ne_eq, Option.some.injEq]
                intro hd
                exact hcd ⟨hcc, hd⟩
            exact (ih (d :: r) hlen1 hna').1 c hdis

/-- C3 amended: with none of the explicit math indicators
(`\(`, `\[`, `$$`, `\begin{`, `\boxed{`) present, a string with exactly
one unescaped `$` is never flagged as math; and any string with two or
more unescaped `$` characters is always flagged as math, regardless of
semantic intent. -/
theorem textMayContainMath_dollar_heuristic (s : List Char) :
    (unescapedDollarCount s = 1 →
      containsL "\\(".data s = false → containsL "\\[".data s = false →
      containsL "$$".data s = false → containsL "\\begin\x7b".data s = false →
      containsL "\\boxed\x7b".data s = false →
      textMayContainMath s = false) ∧
    (2 ≤ unescapedDollarCount s → textMayContainMath s = true) := by
  constructor
  · intro hcount h1 h2 h3 h4 h5
    unfold textMayContainMath
    by_cases hnil : s = []
    · simp [hnil]
    · rw [if_neg hnil]
      rw [if_neg (by simp [h1, h2, h3, h4, h5])]
      have hle : dollarScan s ≤ unescapedDollarCount s :=
        (dollarScanAux_le s.length s le_rfl).2

      simp only [decide_eq_false_iff_not]
      omega
  · intro hcount
    unfold textMayContainMath
    have hnil : s ≠ [] := by
      intro h
      rw [h] at hcount
      simp [unescapedDollarCount] at hcount
    rw [if_neg hnil]
    by_cases hind : (containsL "\\(".data s || containsL "\\[".data s ||
        containsL "$$".data s || containsL "\\begin\x7b".data s ||
        containsL "\\boxed\x7b".data s) = true
    · rw [if_pos hind]
    · have hind' := hind
      simp only [Bool.or_eq_true, not_or, Bool.not_eq_true] at hind'
      obtain ⟨⟨⟨⟨-, -⟩, hdd⟩, -⟩, -⟩ := hind'
      rw [if_neg hind]
      have heq : dollarScan s = unescapedDollarCount s := by
        have hdd' : containsL ['$', '$'] s = false := by
          have : "$$".data = ['$', '$'] := by decide
          rw [← this]; exact hdd
        exact (dollarScanAux_eq_of_noadj s.length s le_rfl hdd').2
      simp only [decide_eq_true_iff]
      omega

/-- C3 witness for the amended claim: `"costs $5"` has one unescaped `$`
and is not math; `"costs $5 and $10"` has two and is flagged. -/
theorem textMayContainMath_dollar_heuristic_witness :
    textMayContainMath "costs $5".data = false ∧
    textMayContainMath "costs $5 and $10".data = true :=
  ⟨(textMayContainMath_dollar_heuristic "costs $5".data).1 (by decide) (by decide)
      (by decide) (by decide) (by decide) (by decide),
   (textMayContainMath_dollar_heuristic "costs $5 and $10".data).2 (by decide)⟩

/-! ## Claim C2 — generic extraction/restoration round-trip -/

/-- A matcher whose match is the consumed prefix, stored verbatim. -/
def PrefixConsuming (m : List Char → Option (List Char × List Char)) : Prop :=
  ∀ cs mt rem, m cs = some (mt, rem) → cs = mt ++ rem ∧ mt ≠ []

theorem PrefixConsuming.consuming {m} (h : PrefixConsuming m) : Consuming m := by
  intro cs mt rem hm
  obtain ⟨heq, hne⟩ := h cs mt rem hm
  subst heq
  cases mt with
  | nil => exact absurd rfl hne
  | cons a as => simp [List.length_append]; omega

theorem scanExtract_cons_some {m : List Char → Option (List Char × List Char)}
    {cat : List Char} {f idx : Nat} {c : Char} {rest mt rem : List Char}
    (h : m (c :: rest) = some (mt, rem)) :
    scanExtract m cat (f + 1) idx (c :: rest) =
      (tokenStr cat idx ++ (scanExtract m cat f (idx + 1) rem).1,
        mt :: (scanExtract m cat f (idx + 1) rem).2) := by
  cases hsc : scanExtract m cat f (idx + 1) rem with
  | mk out items => simp [scanExtract, h, hsc]

theorem scanExtract_cons_none {m : List Char → Option (List Char × List Char)}
    {cat : List Char} {f idx : Nat} {c : Char} {rest : List Char}
    (h : m (c :: rest) = none) :
    scanExtract m cat (f + 1) idx (c :: rest) =
      (c :: (scanExtract m cat f idx rest).1, (scanExtract m cat f idx rest).2) := by
  cases hsc : scanExtract m cat f idx rest with
  | mk out items => simp [scanExtract, h, hsc]

theorem scanExtract_fuel {m : List Char → Option (List Char × List Char)}
    {cat : List Char} (hm : Consuming m) :
    ∀ f idx cs, cs.length ≤ f →
      scanExtract m cat f idx cs = scanExtract m cat cs.length idx cs := by
  intro f
  induction f using Nat.strong_induction_on with
  | _ f ih =>
    intro idx cs hf
    match cs with
    | [] => cases f <;> rfl
    | c :: rest =>
      match f, hf with
      | f + 1, hf =>
        have hf' : rest.length + 1 ≤ f + 1 := by simpa using hf
        show scanExtract m cat (f + 1) idx (c :: rest) =
          scanExtract m cat (rest.length + 1) idx (c :: rest)
        cases hm0 : m (c :: rest) with
        | none =>
          rw [scanExtract_cons_none hm0, scanExtract_cons_none hm0,
            ih f (by omega) idx rest (by omega),
            ih rest.length (by omega) idx rest le_rfl]
        | some pr =>
          obtain ⟨mt, rem⟩ := pr
          have hlt : rem.length < rest.length + 1 := hm _ _ _ hm0
          rw [scanExtract_cons_some hm0, scanExtract_cons_some hm0,
            ih f (by omega) (idx + 1) rem (by omega),
            ih rest.length (by omega) (idx + 1) rem (by omega)]

theorem tryRestore_head_ne (cat : List Char) (store : List (List Char))
    {c : Char} (r : List Char) (hc : c ≠ '%') :
    tryRestore cat store (c :: r) = none := by
  unfold tryRestore
  split
  next heq =>
    injection heq with h1 _
    exact absurd h1 hc
  next => rfl

theorem gReplace_match_head {t : List Char → Option (List Char × List Char)}
    {cs rep rem : List Char} (ht : Consuming t) (h : t cs = some (rep, rem))
    (hne : cs ≠ []) :
    gReplace t cs = rep ++ gReplace t rem := by
  match cs with
  | [] => exact absurd rfl hne
  | c :: rest => exact gReplace_cons_some ht h

/-- Restoring right after extracting recovers the original text, provided
the text contains no `%` (so no pre-existing or accidental placeholder
tokens) and the store answers each fresh index with the stored item. -/
theorem roundtrip_gen {m : List Char → Option (List Char × List Char)}
    (hm : PrefixConsuming m) (cat : List Char) :
    ∀ n cs idx store out items, cs.length ≤ n → '%' ∉ cs →
      scanExtract m cat cs.length idx cs = (out, items) →
      (∀ j, j < items.length → storeGet store (natDigits (idx + j)) = items[j]?) →
      gReplace (tryRestore cat store) out = cs := by
  intro n
  induction n with
  | zero =>
    intro cs idx store out items hle hpc hsc hst
    have hnil : cs = [] := List.length_eq_zero.mp (by omega)
    subst hnil
    obtain ⟨rfl, rfl⟩ : ([] : List Char) = out ∧ ([] : List (List Char)) = items := by
      have : (([], []) : List Char × List (List Char)) = (out, items) := hsc
      exact ⟨congrArg Prod.fst this, congrArg Prod.snd this⟩
    rfl
  | succ n ih =>
    intro cs idx store out items hle hpc hsc hst
    match cs with
    | [] =>
      obtain ⟨rfl, rfl⟩ : ([] : List Char) = out ∧ ([] : List (List Char)) = items := by
        have : (([], []) : List Char × List (List Char)) = (out, items) := hsc
        exact ⟨congrArg Prod.fst this, congrArg Prod.snd this⟩
      rfl
    | c :: rest =>
      have hc : c ≠ '%' := fun h => hpc (h ▸ List.mem_cons_self c rest)
      have hpc' : '%' ∉ rest := fun h => hpc (List.mem_cons_of_mem c h)
      cases hm0 : m (c :: rest) with
      | none =>
        rw [show (c :: rest).length = rest.length + 1 from rfl,
          scanExtract_cons_none hm0] at hsc
        cases hX : scanExtract m cat rest.length idx rest with
        | mk out' items' =>
          rw [hX] at hsc
          obtain ⟨rfl, rfl⟩ : c :: out' = out ∧ items' = items := by
            exact ⟨congrArg Prod.fst hsc, congrArg Prod.snd hsc⟩
          rw [gReplace_cons_none (tryRestore_head_ne cat store out' hc)]
          rw [ih rest idx store out' items' (by simp at hle; omega) hpc' hX hst]
      | some pr =>
        obtain ⟨mt, rem⟩ := pr
        obtain ⟨hshape, hmt⟩ := hm _ _ _ hm0
        have hcons : Consuming m := hm.consuming
        have hremlt : rem.length < rest.length + 1 := hcons _ _ _ hm0
        rw [show (c :: rest).length = rest.length + 1 from rfl,
          scanExtract_cons_some hm0,
          scanExtract_fuel hcons rest.length (idx + 1) rem (by omega)] at hsc
        cases hX : scanExtract m cat rem.length (idx + 1) rem with
        | mk out' items' =>
          rw [hX] at hsc
          obtain ⟨rfl, rfl⟩ : tokenStr cat idx ++ out' = out ∧ mt :: items' = items := by
            exact ⟨congrArg Prod.fst hsc, congrArg Prod.snd hsc⟩
          have htok := tryRestore_token cat store idx out'
          have hget : storeGet store (natDigits idx) = some mt := by
            have := hst 0 (by simp)
            simpa using this
          rw [hget] at htok
          rw [gReplace_match_head (tryRestore_consuming cat store) htok
            (by simp [tokenStr])]
          have hpcrem : '%' ∉ rem := fun h => hpc (hshape ▸ List.mem_append_right mt h)
          have hst' : ∀ j, j < items'.length →
              storeGet store (natDigits (idx + 1 + j)) = items'[j]? := by
            intro j hj
            have := hst (j + 1) (by simp; omega)
            rw [show idx + (j + 1) = idx + 1 + j by omega] at this
            simpa using this
          have hle' : rest.length + 1 ≤ n + 1 := by simpa using hle
          rw [ih rem (idx + 1) store out' items' (by omega) hpcrem hX hst']
          rw [Option.getD_some]
          exact hshape.symm

theorem startsWithL_iff : ∀ (lit cs : List Char),
    startsWithL lit cs = true ↔ ∃ r, cs = lit ++ r := by
  intro lit
  induction lit with
  | nil => intro cs; simp [startsWithL]
  | cons p ps ih =>
    intro cs
    match cs with
    | [] => simp [startsWithL]
    | c :: cs' =>
      simp only [startsWithL, Bool.and_eq_true, decide_eq_true_eq]
      constructor
      · rintro ⟨rfl, hs⟩
        obtain ⟨r, rfl⟩ := (ih cs').mp hs
        exact ⟨r, rfl⟩
      · rintro ⟨r, heq⟩
        injection heq with h1 h2
        exact ⟨h1.symm, (ih cs').mpr ⟨r, h2⟩⟩

/-- Earliest ```` ``` ```` really splits the list there. -/
theorem splitAtTripleTick_parts :
    ∀ cs p r, splitAtTripleTick cs = some (p, r) →
      cs = p ++ '`' :: '`' :: '`' :: r := by
  intro cs
  induction cs with
  | nil => intro p r h; simp [splitAtTripleTick] at h
  | cons c rest ih =>
    intro p r h
    unfold splitAtTripleTick at h
    by_cases hsw : startsWithL ['`', '`', '`'] (c :: rest) = true
    · rw [if_pos hsw] at h
      obtain ⟨r2, heq⟩ := (startsWithL_iff _ _).mp hsw
      have h' : (([], rest.drop 2) : List Char × List Char) = (p, r) :=
        Option.some.inj h
      obtain ⟨rfl, rfl⟩ : ([] : List Char) = p ∧ rest.drop 2 = r :=
        ⟨congrArg Prod.fst h', congrArg Prod.snd h'⟩
      obtain ⟨hc, hrest⟩ : c = '`' ∧ rest = '`' :: '`' :: r2 := by
        injection heq with h1 h2
        exact ⟨h1, h2⟩
      rw [hc, hrest]
      rfl
    · rw [if_neg hsw, Option.map_eq_some'] at h
      obtain ⟨⟨p', r'⟩, hsp, heq⟩ := h
      obtain ⟨rfl, rfl⟩ : c :: p' = p ∧ r' = r :=
        ⟨congrArg Prod.fst heq, congrArg Prod.snd heq⟩
      rw [List.cons_append]
      rw [← ih p' r' hsp]

/-! ## Claims C1 and C8 — citation depth scan -/

/-- Parenthesis depth after reading a payload from depth `d`;
`none` when the depth would reach 0 before the end (i.e. the payload
contains the closing parenthesis of the marker). -/
def depthRun : Nat → List Char → Option Nat
  | d, [] => some d
  | d, c :: rest =>
    if c = '(' then depthRun (d + 1) rest
    else if c = ')' then (if d ≤ 1 then none else depthRun (d - 1) rest)
    else depthRun d rest

theorem scanPayloadAux_nl (d : Nat) (x : List Char) :
    scanPayloadAux d ('\n' :: x) = none := by
  simp [scanPayloadAux]

theorem scanPayloadAux_open (d : Nat) (x : List Char) :
    scanPayloadAux d ('(' :: x) =
      (scanPayloadAux (d + 1) x).map fun p => ('(' :: p.1, p.2) := by
  simp [scanPayloadAux]

theorem scanPayloadAux_close (d : Nat) (x : List Char) :
    scanPayloadAux d (')' :: x) =
      if d = 1 then some ([], x)
      else (scanPayloadAux (d - 1) x).map fun p => (')' :: p.1, p.2) := by
  simp [scanPayloadAux]

theorem scanPayloadAux_other (d : Nat) (c : Char) (x : List Char)
    (h1 : c ≠ '\n') (h2 : c ≠ '(') (h3 : c ≠ ')') :
    scanPayloadAux d (c :: x) =
      (scanPayloadAux d x).map fun p => (c :: p.1, p.2) := by
  simp [scanPayloadAux, h1, h2, h3]

theorem depthRun_open (d : Nat) (x : List Char) :
    depthRun d ('(' :: x) = depthRun (d + 1) x := by simp [depthRun]

theorem depthRun_close (d : Nat) (x : List Char) :
    depthRun d (')' :: x) = if d ≤ 1 then none else depthRun (d - 1) x := by
  simp [depthRun]

theorem depthRun_other (d : Nat) (c : Char) (x : List Char)
    (h2 : c ≠ '(') (h3 : c ≠ ')') :
    depthRun d (c :: x) = depthRun d x := by simp [depthRun, h2, h3]

/-- A depth-balanced payload followed by `)` scans to exactly that
payload. -/
theorem scanPayload_balanced :
    ∀ (p : List Char) (d : Nat) (rest : List Char), 1 ≤ d → '\n' ∉ p →
      depthRun d p = some 1 →
      scanPayloadAux d (p ++ ')' :: rest) = some (p, rest) := by
  intro p
  induction p with
  | nil =>
    intro d rest hd hnl hbal
    have hd1 : d = 1 := Option.some.inj hbal
    subst hd1
    rw [List.nil_append, scanPayloadAux_close, if_pos rfl]
  | cons c p' ih =>
    intro d rest hd hnl hbal
    have hcnl : c ≠ '\n' := fun h => hnl (h ▸ List.mem_cons_self c p')
    have hnl' : '\n' ∉ p' := fun h => hnl (List.mem_cons_of_mem c h)
    by_cases hop : c = '('
    · subst hop
      rw [depthRun_open] at hbal
      rw [List.cons_append, scanPayloadAux_open, ih (d + 1) rest (by omega) hnl' hbal]
      rfl
    · by_cases hcl : c = ')'
      · subst hcl
        rw [depthRun_close] at hbal
        by_cases hd1 : d ≤ 1
        · rw [if_pos hd1] at hbal; exact absurd hbal (by simp)
        · rw [if_neg hd1] at hbal
          rw [List.cons_append, scanPayloadAux_close, if_neg (by omega : ¬d = 1),
            ih (d - 1) rest (by omega) hnl' hbal]
          rfl
      · rw [depthRun_other d c p' hop hcl] at hbal
        rw [List.cons_append, scanPayloadAux_other d c _ hcnl hop hcl,
          ih d rest hd hnl' hbal]
        rfl

/-- A payload that never closes the marker parenthesis makes the scan
fail at a following newline. -/
theorem scanPayload_fail_nl :
    ∀ (q : List Char) (d : Nat) (d' : Nat) (rest : List Char), '\n' ∉ q →
      depthRun d q = some d' →
      scanPayloadAux d (q ++ '\n' :: rest) = none := by
  intro q
  induction q with
  | nil =>
    intro d d' rest _ _
    rw [List.nil_append, scanPayloadAux_nl]
  | cons c q' ih =>
    intro d d' rest hnl hbal
    have hcnl : c ≠ '\n' := fun h => hnl (h ▸ List.mem_cons_self c q')
    have hnl' : '\n' ∉ q' := fun h => hnl (List.mem_cons_of_mem c h)
    by_cases hop : c = '('
    · subst hop
      rw [depthRun_open] at hbal
      rw [List.cons_append, scanPayloadAux_open, ih (d + 1) d' rest hnl' hbal]
      rfl
    · by_cases hcl : c = ')'
      · subst hcl
        rw [depthRun_close] at hbal
        by_cases hd1 : d ≤ 1
        · rw [if_pos hd1] at hbal; exact absurd hbal (by simp)
        · rw [if_neg hd1] at hbal
          rw [List.cons_append, scanPayloadAux_close, if_neg (by omega : ¬d = 1),
            ih (d - 1) d' rest hnl' hbal]
          rfl
      · rw [depthRun_other d c q' hop hcl] at hbal
        rw [List.cons_append, scanPayloadAux_other d c _ hcnl hop hcl,
          ih d d' rest hnl' hbal]
        rfl

/-- A payload that never closes the marker parenthesis makes the scan
fail at end-of-text. -/
theorem scanPayload_fail_end :
    ∀ (q : List Char) (d : Nat) (d' : Nat), '\n' ∉ q →
      depthRun d q = some d' →
      scanPayloadAux d q = none := by
  intro q
  induction q with
  | nil => intro d d' _ _; rfl
  | cons c q' ih =>
    intro d d' hnl hbal
    have hcnl : c ≠ '\n' := fun h => hnl (h ▸ List.mem_cons_self c q')
    have hnl' : '\n' ∉ q' := fun h => hnl (List.mem_cons_of_mem c h)
    by_cases hop : c = '('
    · subst hop
      rw [depthRun_open] at hbal
      rw [scanPayloadAux_open, ih (d + 1) d' hnl' hbal]
      rfl
    · by_cases hcl : c = ')'
      · subst hcl
        rw [depthRun_close] at hbal
        by_cases hd1 : d ≤ 1
        · rw [if_pos hd1] at hbal; exact absurd hbal (by simp)
        · rw [if_neg hd1] at hbal
          rw [scanPayloadAux_close, if_neg (by omega : ¬d = 1), ih (d - 1) d' hnl' hbal]
          rfl
      · rw [depthRun_other d c q' hop hcl] at hbal
        rw [scanPayloadAux_other d c _ hcnl hop hcl, ih d d' hnl' hbal]
        rfl

/-- A successful scan splits its input at the closing parenthesis. -/
theorem scanPayload_parts :
    ∀ (cs : List Char) (d : Nat) (p rest : List Char),
      scanPayloadAux d cs = some (p, rest) → cs = p ++ ')' :: rest := by
  intro cs
  induction cs with
  | nil => intro d p rest h; simp [scanPayloadAux] at h
  | cons c cs' ih =>
    intro d p rest h
    unfold scanPayloadAux at h
    by_cases hcnl : c = '\n'
    · rw [if_pos hcnl] at h; exact absurd h (by simp)
    · rw [if_neg hcnl] at h
      by_cases hop : c = '('
      · rw [if_pos hop] at h
        rw [Option.map_eq_some'] at h
        obtain ⟨⟨p', r'⟩, hsp, heq⟩ := h
        obtain ⟨rfl, rfl⟩ : c :: p' = p ∧ r' = rest :=
          ⟨congrArg Prod.fst heq, congrArg Prod.snd heq⟩
        rw [List.cons_append, ← ih (d + 1) p' r' hsp]
      · rw [if_neg hop] at h
        by_cases hcl : c = ')'
        · rw [if_pos hcl] at h
          by_cases hd1 : d = 1
          · rw [if_pos hd1] at h
            obtain ⟨rfl, rfl⟩ : ([] : List Char) = p ∧ cs' = rest := by
              have h' := Option.some.inj h
              exact ⟨congrArg Prod.fst h', congrArg Prod.snd h'⟩
            rw [hcl]
            rfl
          · rw [if_neg hd1, Option.map_eq_some'] at h
            obtain ⟨⟨p', r'⟩, hsp, heq⟩ := h
            obtain ⟨rfl, rfl⟩ : c :: p' = p ∧ r' = rest :=
              ⟨congrArg Prod.fst heq, congrArg Prod.snd heq⟩
            rw [List.cons_append, ← ih (d - 1) p' r' hsp]
        · rw [if_neg hcl, Option.map_eq_some'] at h
          obtain ⟨⟨p', r'⟩, hsp, heq⟩ := h
          obtain ⟨rfl, rfl⟩ : c :: p' = p ∧ r' = rest :=
            ⟨congrArg Prod.fst heq, congrArg Prod.snd heq⟩
          rw [List.cons_append, ← ih d p' r' hsp]

theorem matchCitPrefix_shape {cs ds r2 : List Char}
    (h : matchCitPrefix cs = some (ds, r2)) :
    cs = '[' :: (ds ++ ']' :: '(' :: (TEXT_FRAGMENT_PREFIX ++ r2)) ∧
      ds ≠ [] ∧ ∀ c ∈ ds, c.isDigit = true := by
  unfold matchCitPrefix at h
  split at h
  next rest =>
    split at h
    · simp at h
    next hds =>
      split at h
      next r2' hsp =>
        obtain ⟨rfl, rfl⟩ : rest.takeWhile Char.isDigit = ds ∧ r2' = r2 := by
          have h' := Option.some.inj h
          exact ⟨congrArg Prod.fst h', congrArg Prod.snd h'⟩
        have hr := stripPrefixL_eq _ _ _ hsp
        refine ⟨?_, hds, fun _ hc => List.mem_takeWhile_imp hc⟩
        calc '[' :: rest
            = '[' :: (rest.takeWhile Char.isDigit ++ rest.dropWhile Char.isDigit) := by
              rw [List.takeWhile_append_dropWhile]
          _ = '[' :: (rest.takeWhile Char.isDigit ++
                ((']' :: '(' :: TEXT_FRAGMENT_PREFIX) ++ r2')) := by rw [hr]
          _ = '[' :: (rest.takeWhile Char.isDigit ++ ']' :: '(' ::
                (TEXT_FRAGMENT_PREFIX ++ r2')) := by simp
      · simp at h
  next => simp at h

theorem matchCitPrefix_of (ds r2 : List Char) (hne : ds ≠ [])
    (hdig : ∀ c ∈ ds, c.isDigit = true) :
    matchCitPrefix ('[' :: (ds ++ ']' :: '(' :: (TEXT_FRAGMENT_PREFIX ++ r2))) =
      some (ds, r2) := by
  have ht : (ds ++ ']' :: '(' :: (TEXT_FRAGMENT_PREFIX ++ r2)).takeWhile Char.isDigit = ds :=
    takeWhile_append_of hdig (by decide)
  have hd : (ds ++ ']' :: '(' :: (TEXT_FRAGMENT_PREFIX ++ r2)).dropWhile Char.isDigit =
      ']' :: '(' :: (TEXT_FRAGMENT_PREFIX ++ r2) :=
    dropWhile_append_of hdig (by decide)
  have hs : stripPrefixL (']' :: '(' :: TEXT_FRAGMENT_PREFIX)
      (']' :: '(' :: (TEXT_FRAGMENT_PREFIX ++ r2)) = some r2 := by
    have heq : (']' :: '(' :: (TEXT_FRAGMENT_PREFIX ++ r2)) =
        (']' :: '(' :: TEXT_FRAGMENT_PREFIX) ++ r2 := by simp
    rw [heq, stripPrefixL_append]
  simp only [matchCitPrefix, ht, hd, hs, if_neg hne]

theorem matchCitPrefix_head_ne {c : Char} (r : List Char) (hc : c ≠ '[') :
    matchCitPrefix (c :: r) = none := by
  unfold matchCitPrefix
  split
  next heq =>
    injection heq with h1 _
    exact absurd h1 hc
  next => rfl

theorem tryNormCit_head_ne {c : Char} (r : List Char) (hc : c ≠ '[') :
    tryNormCit (c :: r) = none := by
  unfold tryNormCit
  rw [matchCitPrefix_head_ne r hc]

theorem tryNormCit_consuming : Consuming tryNormCit := by
  intro cs mt rem h
  unfold tryNormCit at h
  split at h
  · simp at h
  next ds r2 hmp =>
    split at h
    · simp at h
    next payload after hsc =>
      obtain ⟨-, rfl⟩ :
          '[' :: ds ++ ']' :: '(' :: (TEXT_FRAGMENT_PREFIX ++
            encodeCitationPayload payload ++ [')']) = mt ∧ after = rem := by
        have h' := Option.some.inj h
        exact ⟨congrArg Prod.fst h', congrArg Prod.snd h'⟩
      obtain ⟨hshape, -, -⟩ := matchCitPrefix_shape hmp
      have hparts := scanPayload_parts r2 1 payload after hsc
      rw [hshape, hparts]
      simp [List.length_append]
      omega

/-- Success of `tryNormCit` on a well-formed marker with a depth-balanced
payload followed by arbitrary text. -/
theorem tryNormCit_marker (ds p rest : List Char) (hne : ds ≠ [])
    (hdig : ∀ c ∈ ds, c.isDigit = true) (hnl : '\n' ∉ p)
    (hbal : depthRun 1 p = some 1) :
    tryNormCit ('[' :: (ds ++ ']' :: '(' :: (TEXT_FRAGMENT_PREFIX ++ (p ++ ')' :: rest)))) =
      some ('[' :: ds ++ ']' :: '(' :: (TEXT_FRAGMENT_PREFIX ++
        encodeCitationPayload p ++ [')']), rest) := by
  have h1 := matchCitPrefix_of ds (p ++ ')' :: rest) hne hdig
  have h2 := scanPayload_balanced p 1 rest le_rfl hnl hbal
  simp only [tryNormCit, h1, h2]

/-- C1: normalizing a citation marker whose payload has balanced literal
parentheses (each prefix closes no more than it opens and the whole
payload is balanced, so the scan depth never reaches 0 inside it)
yields a single marker carrying the *entire* payload percent-encoded —
the marker is not truncated at the first `)`. -/
theorem normalizeTextFragmentLinks_balanced (ds p : List Char) (hne : ds ≠ [])
    (hdig : ∀ c ∈ ds, c.isDigit = true) (hnl : '\n' ∉ p)
    (hbal : depthRun 1 p = some 1) :
    normalizeTextFragmentLinks
        ('[' :: (ds ++ ']' :: '(' :: (TEXT_FRAGMENT_PREFIX ++ (p ++ [')'])))) =
      '[' :: ds ++ ']' :: '(' :: (TEXT_FRAGMENT_PREFIX ++
        encodeCitationPayload p ++ [')']) := by
  unfold normalizeTextFragmentLinks
  exact gReplace_total_match tryNormCit_consuming
    (tryNormCit_marker ds p [] hne hdig hnl hbal) (by simp)

/-- C1 witness: `[1](#:~:text=a(b)c)` normalizes to a single marker with
the full payload `a(b)c` (whose percent-encoding is itself, parentheses
being unreserved), not truncated at the first `)`. -/
theorem normalizeTextFragmentLinks_balanced_witness :
    normalizeTextFragmentLinks
        ('[' :: ("1".data ++ ']' :: '(' :: (TEXT_FRAGMENT_PREFIX ++ ("a(b)c".data ++ [')'])))) =
      '[' :: "1".data ++ ']' :: '(' :: (TEXT_FRAGMENT_PREFIX ++
        encodeCitationPayload "a(b)c".data ++ [')']) :=
  normalizeTextFragmentLinks_balanced "1".data "a(b)c".data
    (by decide) (by decide) (by decide) (by decide)

/-- Text whose characters include no `[` is copied verbatim by the
normalizer scanner. -/
theorem normCit_passthrough (x y : List Char) (hx : '[' ∉ x) :
    gReplace tryNormCit (x ++ y) = x ++ gReplace tryNormCit y :=
  gReplace_append_nomatch x y fun _ r hc =>
    tryNormCit_head_ne r (fun h => hx (h ▸ hc))

/-- C8: a citation prefix whose payload never balances before a newline
(or before end-of-text) is left byte-for-byte unmodified, and scanning
resumes after it: markers in the following text are still normalized. -/
theorem normalizeTextFragmentLinks_unbalanced (ds q rest : List Char)
    (hne : ds ≠ []) (hdig : ∀ c ∈ ds, c.isDigit = true)
    (hnl : '\n' ∉ q) (hbr : '[' ∉ q) (d' : Nat)
    (hnc : depthRun 1 q = some d') :
    normalizeTextFragmentLinks
        ('[' :: (ds ++ ']' :: '(' :: (TEXT_FRAGMENT_PREFIX ++ (q ++ '\n' :: rest)))) =
      '[' :: (ds ++ ']' :: '(' :: (TEXT_FRAGMENT_PREFIX ++
        (q ++ '\n' :: normalizeTextFragmentLinks rest))) ∧
    normalizeTextFragmentLinks
        ('[' :: (ds ++ ']' :: '(' :: (TEXT_FRAGMENT_PREFIX ++ q))) =
      '[' :: (ds ++ ']' :: '(' :: (TEXT_FRAGMENT_PREFIX ++ q)) := by
  have hdsb : ∀ c, c ∈ ds → c ≠ '[' := by
    intro c hc heq
    have := hdig c hc
    rw [heq] at this
    exact absurd this (by decide)
  have hx : '[' ∉ (ds ++ ']' :: '(' :: (TEXT_FRAGMENT_PREFIX ++ q)) := by
    intro hc
    rcases List.mem_append.mp hc with hc | hc
    · exact hdsb '[' hc rfl
    · rcases List.mem_cons.mp hc with heq | hc
      · exact absurd heq (by decide)
      · rcases List.mem_cons.mp hc with heq | hc
        · exact absurd heq (by decide)
        · rcases List.mem_append.mp hc with hc | hc
          · exact absurd hc (by decide)
          · exact hbr hc
  constructor
  · have htry : tryNormCit
        ('[' :: (ds ++ ']' :: '(' :: (TEXT_FRAGMENT_PREFIX ++ (q ++ '\n' :: rest)))) = none := by
      have h1 := matchCitPrefix_of ds (q ++ '\n' :: rest) hne hdig
      have h2 := scanPayload_fail_nl q 1 d' rest hnl hnc
      simp only [tryNormCit, h1, h2]
    unfold normalizeTextFragmentLinks
    rw [gReplace_cons_none htry]
    have hsplit : (ds ++ ']' :: '(' :: (TEXT_FRAGMENT_PREFIX ++ (q ++ '\n' :: rest))) =
        (ds ++ ']' :: '(' :: (TEXT_FRAGMENT_PREFIX ++ q)) ++ ('\n' :: rest) := by
      simp
    rw [hsplit, normCit_passthrough _ _ hx,
      gReplace_cons_none (tryNormCit_head_ne rest (by decide))]
    simp
  · have htry : tryNormCit
        ('[' :: (ds ++ ']' :: '(' :: (TEXT_FRAGMENT_PREFIX ++ q))) = none := by
      have h1 := matchCitPrefix_of ds q hne hdig
      have h2 := scanPayload_fail_end q 1 d' hnl hnc
      simp only [tryNormCit, h1, h2]
    unfold normalizeTextFragmentLinks
    rw [gReplace_cons_none htry]
    rw [gReplace_id_of_nomatch _
      (fun c r hc => tryNormCit_head_ne r (fun h => hx (h ▸ hc)))]

/-- C8 witness: the failed prefix `[1](#:~:text=a(b` before a newline is
left unmodified while the well-formed marker on the following line is
still processed. -/
theorem normalizeTextFragmentLinks_unbalanced_witness :
    normalizeTextFragmentLinks
        ('[' :: ("1".data ++ ']' :: '(' :: (TEXT_FRAGMENT_PREFIX ++
          ("a(b".data ++ '\n' :: "[2](#:~:text=x)".data)))) =
      '[' :: ("1".data ++ ']' :: '(' :: (TEXT_FRAGMENT_PREFIX ++
        ("a(b".data ++ '\n' :: normalizeTextFragmentLinks "[2](#:~:text=x)".data))) ∧
    normalizeTextFragmentLinks
        ('[' :: ("1".data ++ ']' :: '(' :: (TEXT_FRAGMENT_PREFIX ++ "a(b".data))) =
      '[' :: ("1".data ++ ']' :: '(' :: (TEXT_FRAGMENT_PREFIX ++ "a(b".data)) :=
  normalizeTextFragmentLinks_unbalanced "1".data "a(b".data "[2](#:~:text=x)".data
    (by decide) (by decide) (by decide) (by decide) 2 (by decide)

theorem matchCodeBlock_prefixConsuming : PrefixConsuming matchCodeBlock := by
  intro cs mt rem h
  unfold matchCodeBlock at h
  split at h
  next rest =>
    rw [Option.map_eq_some'] at h
    obtain ⟨⟨p, r⟩, hsp, hmap⟩ := h
    have hparts := splitAtTripleTick_parts rest p r hsp
    obtain ⟨rfl, rfl⟩ : '`' :: '`' :: '`' :: (p ++ ['`', '`', '`']) = mt ∧ r = rem :=
      ⟨congrArg Prod.fst hmap, congrArg Prod.snd hmap⟩
    constructor
    · rw [hparts]; simp
    · simp
  next => simp at h

theorem matchInlineCode_prefixConsuming : PrefixConsuming matchInlineCode := by
  intro cs mt rem h
  unfold matchInlineCode at h
  split at h
  next rest =>
    split at h
    next content r hspan =>
      split at h
      · simp at h
      next hcne =>
        split at h
        next r2 =>
          obtain ⟨rfl, rfl⟩ : '`' :: (content ++ ['`']) = mt ∧ r2 = rem := by
            have h' := Option.some.inj h
            exact ⟨congrArg Prod.fst h', congrArg Prod.snd h'⟩
          have hparts := span_parts hspan
          constructor
          · rw [hparts]; simp
          · simp
        · simp at h
  next => simp at h

theorem matchLink_prefixConsuming : PrefixConsuming matchLink := by
  intro cs mt rem h
  unfold matchLink at h
  split at h
  next rest =>
    split at h
    next label r hspan =>
      split at h
      · simp at h
      next hlne =>
        split at h
        next r2 =>
          split at h
          · simp at h
          next hnc =>
            split at h
            next url r3 hspan2 =>
              split at h
              · simp at h
              next hune =>
                split at h
                next r4 =>
                  obtain ⟨rfl, rfl⟩ :
                      '[' :: (label ++ ']' :: '(' :: (url ++ [')'])) = mt ∧ r4 = rem := by
                    have h' := Option.some.inj h
                    exact ⟨congrArg Prod.fst h', congrArg Prod.snd h'⟩
                  have hp1 := span_parts hspan
                  have hp2 := span_parts hspan2
                  constructor
                  · rw [hp1, hp2]; simp
                  · simp
                · simp at h
        · simp at h
  next => simp at h

/-- C2 amended: for every text containing only safe characters (no `%`,
hence no pre-existing placeholder tokens), restoring immediately after
extracting with the same store returns the original text for the
code-block, inline-code and link categories in isolation.  (The math
category fails this round-trip; see the counterexample.) -/
theorem extract_restore_roundtrip (text : List Char) (store : List (List Char))
    (h : '%' ∉ text) :
    restoreCodeBlocks (extractCodeBlocks text store).1 (extractCodeBlocks text store).2 = text ∧
    restoreInlineCode (extractInlineCode text store).1 (extractInlineCode text store).2 = text ∧
    restoreLinks (extractLinks text store).1 (extractLinks text store).2 = text := by
  refine ⟨?_, ?_, ?_⟩
  · unfold extractCodeBlocks restoreCodeBlocks
    cases hsc : scanExtract matchCodeBlock "CODE_BLOCK".data text.length store.length text with
    | mk out items =>
      simp only
      exact roundtrip_gen matchCodeBlock_prefixConsuming "CODE_BLOCK".data text.length
        text store.length (store ++ items) out items le_rfl h hsc
        (fun j hj => storeGet_append store items j hj)
  · unfold extractInlineCode restoreInlineCode
    cases hsc : scanExtract matchInlineCode "INLINE_CODE".data text.length store.length text with
    | mk out items =>
      simp only
      exact roundtrip_gen matchInlineCode_prefixConsuming "INLINE_CODE".data text.length
        text store.length (store ++ items) out items le_rfl h hsc
        (fun j hj => storeGet_append store items j hj)
  · unfold extractLinks restoreLinks
    cases hsc : scanExtract matchLink "LINK_EXPRESSION".data text.length store.length text with
    | mk out items =>
      simp only
      exact roundtrip_gen matchLink_prefixConsuming "LINK_EXPRESSION".data text.length
        text store.length (store ++ items) out items le_rfl h hsc
        (fun j hj => storeGet_append store items j hj)

/-- C2 witness: the round-trip at a concrete text containing a code
block, an inline code span and a link. -/
theorem extract_restore_roundtrip_witness :
    restoreCodeBlocks (extractCodeBlocks "a ``` $x ``` b `y` [t](u) c".data []).1
        (extractCodeBlocks "a ``` $x ``` b `y` [t](u) c".data []).2 =
      "a ``` $x ``` b `y` [t](u) c".data ∧
    restoreInlineCode (extractInlineCode "a ``` $x ``` b `y` [t](u) c".data []).1
        (extractInlineCode "a ``` $x ``` b `y` [t](u) c".data []).2 =
      "a ``` $x ``` b `y` [t](u) c".data ∧
    restoreLinks (extractLinks "a ``` $x ``` b `y` [t](u) c".data []).1
        (extractLinks "a ``` $x ``` b `y` [t](u) c".data []).2 =
      "a ``` $x ``` b `y` [t](u) c".data :=
  extract_restore_roundtrip "a ``` $x ``` b `y` [t](u) c".data [] (by decide)

/-! ## Claim C9 — think tags -/

theorem startsWithL_append_self : ∀ p r : List Char, startsWithL p (p ++ r) = true := by
  intro p
  induction p with
  | nil => intro r; rfl
  | cons c cs ih => intro r; simp [startsWithL, ih]

theorem startsWithL_cons_head {pc c : Char} {ps cs : List Char} (hc : c ≠ pc) :
    startsWithL (pc :: ps) (c :: cs) = false := by
  simp [startsWithL]
  intro h
  exact absurd h.symm hc

theorem drop7_thinkOpen (x : List Char) : (thinkOpenL ++ x).drop 7 = x := rfl

theorem drop8_thinkClose (x : List Char) : (thinkCloseL ++ x).drop 8 = x := rfl

theorem startsWithL_thinkClose_false {c : Char} {cs : List Char} (hc : c ≠ '<') :
    startsWithL thinkCloseL (c :: cs) = false := by
  rw [show thinkCloseL = '<' :: ['/', 't', 'h', 'i', 'n', 'k', '>'] from rfl]
  exact startsWithL_cons_head hc

theorem startsWithL_thinkOpen_false {c : Char} {cs : List Char} (hc : c ≠ '<') :
    startsWithL thinkOpenL (c :: cs) = false := by
  rw [show thinkOpenL = '<' :: ['t', 'h', 'i', 'n', 'k', '>'] from rfl]
  exact startsWithL_cons_head hc

theorem splitAtCloseThink_parts :
    ∀ cs p r, splitAtCloseThink cs = some (p, r) → cs = p ++ thinkCloseL ++ r := by
  intro cs
  induction cs with
  | nil => intro p r h; simp [splitAtCloseThink] at h
  | cons c rest ih =>
    intro p r h
    unfold splitAtCloseThink at h
    by_cases hsw : startsWithL thinkCloseL (c :: rest) = true
    · rw [if_pos hsw] at h
      obtain ⟨r2, heq⟩ := (startsWithL_iff _ _).mp hsw
      have h' := Option.some.inj h
      obtain ⟨rfl, rfl⟩ : ([] : List Char) = p ∧ (c :: rest).drop 8 = r :=
        ⟨congrArg Prod.fst h', congrArg Prod.snd h'⟩
      rw [heq, drop8_thinkClose]
      rfl
    · rw [if_neg hsw, Option.map_eq_some'] at h
      obtain ⟨⟨p', r'⟩, hsp, heq⟩ := h
      obtain ⟨rfl, rfl⟩ : c :: p' = p ∧ r' = r :=
        ⟨congrArg Prod.fst heq, congrArg Prod.snd heq⟩
      rw [ih p' r' hsp]
      simp

theorem splitAtCloseThink_clean :
    ∀ a y : List Char, '<' ∉ a →
      splitAtCloseThink (a ++ (thinkCloseL ++ y)) = some (a, y) := by
  intro a
  induction a with
  | nil =>
    intro y _
    have h1 : startsWithL thinkCloseL ('<' :: (['/', 't', 'h', 'i', 'n', 'k', '>'] ++ y)) = true :=
      startsWithL_append_self thinkCloseL y
    show splitAtCloseThink ('<' :: (['/', 't', 'h', 'i', 'n', 'k', '>'] ++ y)) = some ([], y)
    unfold splitAtCloseThink
    rw [if_pos h1]
    rfl
  | cons c a' ih =>
    intro y hna
    have hc : c ≠ '<' := fun h => hna (h ▸ List.mem_cons_self c a')
    have hna' : '<' ∉ a' := fun h => hna (List.mem_cons_of_mem c h)
    show splitAtCloseThink (c :: (a' ++ (thinkCloseL ++ y))) = some (c :: a', y)
    unfold splitAtCloseThink
    rw [if_neg (by rw [startsWithL_thinkClose_false hc]; simp), ih y hna']
    rfl

theorem splitAtCloseThink_none :
    ∀ x : List Char, '<' ∉ x → splitAtCloseThink x = none := by
  intro x
  induction x with
  | nil => intro _; rfl
  | cons c rest ih =>
    intro hna
    have hc : c ≠ '<' := fun h => hna (h ▸ List.mem_cons_self c rest)
    have hna' : '<' ∉ rest := fun h => hna (List.mem_cons_of_mem c h)
    unfold splitAtCloseThink
    rw [if_neg (by rw [startsWithL_thinkClose_false hc]; simp), ih hna']
    rfl

theorem splitBefore_parts :
    ∀ cs a b, splitBeforeCloseOrEnd cs = (a, b) → cs = a ++ b := by
  intro cs
  induction cs with
  | nil =>
    intro a b h
    obtain ⟨rfl, rfl⟩ : ([] : List Char) = a ∧ ([] : List Char) = b :=
      ⟨congrArg Prod.fst h, congrArg Prod.snd h⟩
    rfl
  | cons c rest ih =>
    intro a b h
    unfold splitBeforeCloseOrEnd at h
    by_cases hsw : startsWithL thinkCloseL (c :: rest) = true
    · rw [if_pos hsw] at h
      obtain ⟨rfl, rfl⟩ : ([] : List Char) = a ∧ c :: rest = b :=
        ⟨congrArg Prod.fst h, congrArg Prod.snd h⟩
      rfl
    · rw [if_neg hsw] at h
      cases hsp : splitBeforeCloseOrEnd rest with
      | mk a' b' =>
        rw [hsp] at h
        obtain ⟨rfl, rfl⟩ : c :: a' = a ∧ b' = b :=
          ⟨congrArg Prod.fst h, congrArg Prod.snd h⟩
        rw [List.cons_append, ← ih a' b' hsp]

theorem splitBefore_none :
    ∀ x : List Char, '<' ∉ x → splitBeforeCloseOrEnd x = (x, []) := by
  intro x
  induction x with
  | nil => intro _; rfl
  | cons c rest ih =>
    intro hna
    have hc : c ≠ '<' := fun h => hna (h ▸ List.mem_cons_self c rest)
    have hna' : '<' ∉ rest := fun h => hna (List.mem_cons_of_mem c h)
    unfold splitBeforeCloseOrEnd
    rw [if_neg (by rw [startsWithL_thinkClose_false hc]; simp), ih hna']

theorem tryThink1_head_ne {c : Char} (r : List Char) (hc : c ≠ '<') :
    tryThink1 (c :: r) = none := by
  unfold tryThink1
  rw [if_neg (by rw [startsWithL_thinkOpen_false hc]; simp)]

theorem tryThink2_head_ne {c : Char} (r : List Char) (hc : c ≠ '<') :
    tryThink2 (c :: r) = none := by
  unfold tryThink2
  rw [if_neg (by rw [startsWithL_thinkOpen_false hc]; simp)]

theorem tryThink1_consuming : Consuming tryThink1 := by
  intro cs rep rem h
  unfold tryThink1 at h
  by_cases hsw : startsWithL thinkOpenL cs = true
  · rw [if_pos hsw, Option.map_eq_some'] at h
    obtain ⟨⟨p, r⟩, hsp, heq⟩ := h
    obtain ⟨-, rfl⟩ : thinkTransform p = rep ∧ r = rem :=
      ⟨congrArg Prod.fst heq, congrArg Prod.snd heq⟩
    obtain ⟨r0, rfl⟩ := (startsWithL_iff _ _).mp hsw
    rw [drop7_thinkOpen] at hsp
    have hparts := splitAtCloseThink_parts r0 p r hsp
    rw [hparts]
    simp [thinkOpenL, thinkCloseL]
    omega
  · rw [if_neg hsw] at h
    simp at h

theorem dropLeadNL_length (cs : List Char) : (dropLeadNL cs).length ≤ cs.length := by
  unfold dropLeadNL
  by_cases h : cs.head? = some '\n'
  · rw [if_pos h]
    cases cs <;> simp
  · rw [if_neg h]

theorem tryThink2_consuming : Consuming tryThink2 := by
  intro cs rep rem h
  unfold tryThink2 at h
  by_cases hsw : startsWithL thinkOpenL cs = true
  · rw [if_pos hsw] at h
    cases hsp : splitBeforeCloseOrEnd (dropLeadNL (cs.drop 7)) with
    | mk content after =>
      rw [hsp] at h
      obtain ⟨-, rfl⟩ : thinkTransform content = rep ∧ after = rem :=
        ⟨congrArg Prod.fst (Option.some.inj h), congrArg Prod.snd (Option.some.inj h)⟩
      obtain ⟨r0, rfl⟩ := (startsWithL_iff _ _).mp hsw
      rw [drop7_thinkOpen] at hsp
      have hparts := splitBefore_parts _ _ _ hsp
      have h1 : after.length ≤ (dropLeadNL r0).length := by
        rw [hparts]; simp
      have h2 := dropLeadNL_length r0
      simp [thinkOpenL]
      omega
  · rw [if_neg hsw] at h
    simp at h

theorem joinNL_mem : ∀ (ls : List (List Char)) (d : Char), d ∈ joinNL ls →
    d = '\n' ∨ ∃ l ∈ ls, d ∈ l := by
  intro ls
  induction ls with
  | nil => intro d h; simp [joinNL] at h
  | cons l ls ih =>
    intro d h
    match ls, h with
    | [], h =>
      right
      exact ⟨l, List.mem_cons_self l [], by simpa [joinNL] using h⟩
    | l2 :: ls', h =>
      rw [show joinNL (l :: l2 :: ls') = l ++ '\n' :: joinNL (l2 :: ls') from rfl] at h
      rcases List.mem_append.mp h with h | h
      · exact Or.inr ⟨l, List.mem_cons_self l _, h⟩
      · rcases List.mem_cons.mp h with h | h
        · exact Or.inl h
        · rcases ih d h with h | ⟨l', hl', hd⟩
          · exact Or.inl h
          · exact Or.inr ⟨l', List.mem_cons_of_mem l hl', hd⟩

theorem splitNL_mem : ∀ (x : List Char) (l : List Char) (d : Char),
    l ∈ splitNL x → d ∈ l → d ∈ x := by
  intro x
  induction x with
  | nil =>
    intro l d hl hd
    simp [splitNL] at hl
    subst hl
    simp at hd
  | cons c rest ih =>
    intro l d hl hd
    unfold splitNL at hl
    by_cases hc : c = '\n'
    · rw [if_pos hc] at hl
      rcases List.mem_cons.mp hl with rfl | hl
      · simp at hd
      · exact List.mem_cons_of_mem c (ih l d hl hd)
    · rw [if_neg hc] at hl
      cases hsp : splitNL rest with
      | nil =>
        rw [hsp] at hl
        rcases List.mem_cons.mp hl with rfl | hl
        · rcases List.mem_cons.mp hd with rfl | hd
          · exact List.mem_cons_self d rest
          · simp at hd
        · simp at hl
      | cons l0 ls =>
        rw [hsp] at hl
        rcases List.mem_cons.mp hl with rfl | hl
        · rcases List.mem_cons.mp hd with rfl | hd
          · exact List.mem_cons_self d rest
          · exact List.mem_cons_of_mem c
              (ih l0 d (hsp ▸ List.mem_cons_self l0 ls) hd)
        · exact List.mem_cons_of_mem c
            (ih l d (hsp ▸ List.mem_cons_of_mem l0 hl) hd)

theorem jsTrim_subset {d : Char} {x : List Char} (h : d ∈ jsTrim x) : d ∈ x := by
  unfold jsTrim at h
  rw [List.mem_reverse] at h
  have h1 := (List.dropWhile_sublist (l := (x.dropWhile isJsWs).reverse) isJsWs).mem h
  rw [List.mem_reverse] at h1
  exact (List.dropWhile_sublist isJsWs).mem h1

theorem thinkTransform_no_lt {a : List Char} (ha : '<' ∉ a) :
    '<' ∉ thinkTransform a := by
  intro hmem
  unfold thinkTransform at hmem
  rcases joinNL_mem _ _ hmem with h | ⟨l', hl', hd⟩
  · exact absurd h (by decide)
  · obtain ⟨l, hl, rfl⟩ := List.mem_map.mp hl'
    rcases List.mem_cons.mp hd with h | hd
    · exact absurd h (by decide)
    · rcases List.mem_cons.mp hd with h | hd
      · exact absurd h (by decide)
      · exact ha (jsTrim_subset (splitNL_mem _ _ _ hl (jsTrim_subset hd)))

theorem thinkTransform_dropLeadNL (b : List Char) :
    thinkTransform (dropLeadNL b) = thinkTransform b := by
  unfold thinkTransform
  suffices h : jsTrim (dropLeadNL b) = jsTrim b by rw [h]
  unfold dropLeadNL
  by_cases hb : b.head? = some '\n'
  · rw [if_pos hb]
    cases b with
    | nil => simp at hb
    | cons x xs =>
      have hx : x = '\n' := by simpa using hb
      subst hx
      show jsTrim xs = jsTrim ('\n' :: xs)
      unfold jsTrim
      rw [List.dropWhile_cons, if_pos (show isJsWs '\n' = true by decide)]
  · rw [if_neg hb]

theorem tryThink2_open (b : List Char) (hb : '<' ∉ b) :
    tryThink2 (thinkOpenL ++ b) = some (thinkTransform b, []) := by
  unfold tryThink2
  rw [if_pos (startsWithL_append_self thinkOpenL b), drop7_thinkOpen b]
  have hbd : '<' ∉ dropLeadNL b := by
    intro h
    apply hb
    unfold dropLeadNL at h
    by_cases hh : b.head? = some '\n'
    · rw [if_pos hh] at h
      cases b with
      | nil => simp at h
      | cons x xs => exact List.mem_cons_of_mem x h
    · rwa [if_neg hh] at h
  rw [splitBefore_none (dropLeadNL b) hbd]
  show some (thinkTransform (dropLeadNL b), []) = some (thinkTransform b, [])
  rw [thinkTransform_dropLeadNL b]

/-- C9: a fully closed think pair is converted once (first pass), and an
unterminated opening tag consumes all remaining text as blockquote
content: each line of the trimmed content is trimmed and prefixed with
`> ` and the lines are joined with newlines (`thinkTransform`).  The
already-converted content of the closed pair is not processed again. -/
theorem processThinkTags_unterminated (a c b : List Char)
    (ha : '<' ∉ a) (hc : '<' ∉ c) (hb : '<' ∉ b) :
    processThinkTags (thinkOpenL ++ (a ++ (thinkCloseL ++ (c ++ (thinkOpenL ++ b))))) =
      thinkTransform a ++ (c ++ thinkTransform b) := by
  unfold processThinkTags
  have htry1 : tryThink1 (thinkOpenL ++ (a ++ (thinkCloseL ++ (c ++ (thinkOpenL ++ b))))) =
      some (thinkTransform a, c ++ (thinkOpenL ++ b)) := by
    unfold tryThink1
    rw [if_pos (startsWithL_append_self thinkOpenL _), drop7_thinkOpen,
      splitAtCloseThink_clean a (c ++ (thinkOpenL ++ b)) ha]
    rfl
  have htnotb : ∀ (ch : Char) (r : List Char), ch ∈ (['t', 'h', 'i', 'n', 'k', '>'] : List Char) →
      tryThink1 (ch :: r) = none := by
    intro ch r hch
    refine tryThink1_head_ne r fun hh => ?_
    rw [hh] at hch
    exact absurd hch (by decide)
  have hopenb : gReplace tryThink1 (thinkOpenL ++ b) = thinkOpenL ++ b := by
    have htry1b : tryThink1 (thinkOpenL ++ b) = none := by
      unfold tryThink1
      rw [if_pos (startsWithL_append_self thinkOpenL b), drop7_thinkOpen b,
        splitAtCloseThink_none b hb]
      rfl
    have h0 : tryThink1 ('<' :: (['t', 'h', 'i', 'n', 'k', '>'] ++ b)) = none := htry1b
    calc gReplace tryThink1 (thinkOpenL ++ b)
        = gReplace tryThink1 ('<' :: (['t', 'h', 'i', 'n', 'k', '>'] ++ b)) := rfl
      _ = '<' :: gReplace tryThink1 (['t', 'h', 'i', 'n', 'k', '>'] ++ b) :=
          gReplace_cons_none h0
      _ = '<' :: (['t', 'h', 'i', 'n', 'k', '>'] ++ gReplace tryThink1 b) := by
          rw [gReplace_append_nomatch _ b htnotb]
      _ = '<' :: (['t', 'h', 'i', 'n', 'k', '>'] ++ b) := by
          rw [gReplace_id_of_nomatch b
            (fun ch r hch => tryThink1_head_ne r (fun h => hb (h ▸ hch)))]
      _ = thinkOpenL ++ b := rfl
  have hph1 : gReplace tryThink1
      (thinkOpenL ++ (a ++ (thinkCloseL ++ (c ++ (thinkOpenL ++ b))))) =
      thinkTransform a ++ (c ++ (thinkOpenL ++ b)) := by
    rw [gReplace_match_head tryThink1_consuming htry1 (by simp [thinkOpenL])]
    congr 1
    rw [gReplace_append_nomatch c (thinkOpenL ++ b)
      (fun ch r hch => tryThink1_head_ne r (fun h => hc (h ▸ hch)))]
    rw [hopenb]
  rw [hph1]
  have hta : '<' ∉ thinkTransform a := thinkTransform_no_lt ha
  rw [gReplace_append_nomatch (thinkTransform a) _
    (fun ch r hch => tryThink2_head_ne r (fun h => hta (h ▸ hch)))]
  congr 1
  rw [gReplace_append_nomatch c (thinkOpenL ++ b)
    (fun ch r hch => tryThink2_head_ne r (fun h => hc (h ▸ hch)))]
  congr 1
  exact gReplace_total_match tryThink2_consuming (tryThink2_open b hb)
    (by simp [thinkOpenL])

/-- C9 witness: `<think>x</think>mid<think>line1\nline2` — the closed
pair becomes `> x` once, and the unterminated tag turns the remaining
two lines into trimmed blockquote lines. -/
theorem processThinkTags_unterminated_witness :
    processThinkTags (thinkOpenL ++ ("x".data ++ (thinkCloseL ++ ("mid".data ++
        (thinkOpenL ++ "line1\nline2".data))))) =
      thinkTransform "x".data ++ ("mid".data ++ thinkTransform "line1\nline2".data) ∧
    thinkTransform "line1\nline2".data = "> line1\n> line2".data :=
  ⟨processThinkTags_unterminated "x".data "mid".data "line1\nline2".data
      (by decide) (by decide) (by decide),
    by decide⟩

/-- C2 counterexample: for the math category the round-trip fails on the
placeholder-free text `"$$x$$"`: the stored span is wrapped in the
display container `<div class="math-display-container">…</div>`, so
restoring does not recover the original text. -/
theorem math_roundtrip_counterexample :
    restoreMathExpressions (extractMathExpressions "$$x$$".data []).1
        (extractMathExpressions "$$x$$".data []).2 ≠ "$$x$$".data := by
  decide


/-! ## Claim C4 — consecutive citation joining -/

theorem citMarkerL_cons (ds p : List Char) :
    citMarkerL ds p =
      '[' :: (ds ++ ']' :: '(' :: (TEXT_FRAGMENT_PREFIX ++ p ++ [')'])) := rfl

theorem matchCitLinkF_head_ne {c : Char} (r : List Char) (hc : c ≠ '[') :
    matchCitLinkF (c :: r) = none := by
  unfold matchCitLinkF
  split
  next heq =>
    injection heq with h1 _
    exact absurd h1 hc
  next => rfl

theorem matchCitLinkF_marker {ds p : List Char} (h : CitParts ds p) (r : List Char) :
    matchCitLinkF (citMarkerL ds p ++ r) = some (citMarkerL ds p, r) := by
  obtain ⟨hne, hdigA, hpne, hpcA⟩ := h
  have hdig : ∀ c ∈ ds, c.isDigit = true := fun c hc => List.all_eq_true.mp hdigA c hc
  have hpc : ∀ c ∈ p, citContentChar c = true := fun c hc => List.all_eq_true.mp hpcA c hc
  rw [show citMarkerL ds p ++ r =
    '[' :: (ds ++ ']' :: '(' :: (TEXT_FRAGMENT_PREFIX ++ (p ++ ')' :: r))) from by
      simp [citMarkerL]]
  have ht : (ds ++ ']' :: '(' :: (TEXT_FRAGMENT_PREFIX ++ (p ++ ')' :: r))).takeWhile
      Char.isDigit = ds := takeWhile_append_of hdig (by decide)
  have hd : (ds ++ ']' :: '(' :: (TEXT_FRAGMENT_PREFIX ++ (p ++ ')' :: r))).dropWhile
      Char.isDigit = ']' :: '(' :: (TEXT_FRAGMENT_PREFIX ++ (p ++ ')' :: r)) :=
    dropWhile_append_of hdig (by decide)
  have hs : stripPrefixL (']' :: '(' :: TEXT_FRAGMENT_PREFIX)
      (']' :: '(' :: (TEXT_FRAGMENT_PREFIX ++ (p ++ ')' :: r))) = some (p ++ ')' :: r) := by
    rw [show (']' :: '(' :: (TEXT_FRAGMENT_PREFIX ++ (p ++ ')' :: r))) =
      (']' :: '(' :: TEXT_FRAGMENT_PREFIX) ++ (p ++ ')' :: r) from by simp]
    exact stripPrefixL_append _ _
  have htc : (p ++ ')' :: r).takeWhile citContentChar = p :=
    takeWhile_append_of hpc (by decide)
  have hdc : (p ++ ')' :: r).dropWhile citContentChar = ')' :: r :=
    dropWhile_append_of hpc (by decide)
  simp [matchCitLinkF, ht, hd, hs, htc, hdc, if_neg hne, if_neg hpne, citMarkerL]

theorem matchCitLinkF_prefixConsuming : PrefixConsuming matchCitLinkF := by
  intro cs mt rem h
  unfold matchCitLinkF at h
  split at h
  next rest =>
    split at h
    · simp at h
    next hne =>
      split at h
      next r2 hsp =>
        split at h
        · simp at h
        next hcne =>
          split at h
          next r4 hdw =>
            obtain ⟨rfl, rfl⟩ : '[' :: rest.takeWhile Char.isDigit ++ ']' :: '(' ::
                (TEXT_FRAGMENT_PREFIX ++ r2.takeWhile citContentChar ++ [')']) = mt ∧
                r4 = rem := by
              have h' := Option.some.inj h
              exact ⟨congrArg Prod.fst h', congrArg Prod.snd h'⟩
            have h2 := stripPrefixL_eq _ _ _ hsp
            constructor
            · have h4 : r2 = r2.takeWhile citContentChar ++ ')' :: r4 := by
                conv_lhs => rw [← List.takeWhile_append_dropWhile (p := citContentChar)
                  (l := r2)]
                rw [hdw]
              have h5 : rest = rest.takeWhile Char.isDigit ++
                  ((']' :: '(' :: TEXT_FRAGMENT_PREFIX) ++ r2) := by
                conv_lhs => rw [← List.takeWhile_append_dropWhile (p := Char.isDigit)
                  (l := rest)]
                rw [h2]
              conv_lhs => rw [h5, h4]
              simp
            · simp
          next => simp at h
      next => simp at h
  next => simp at h

theorem matchCitLinkF_consuming : Consuming matchCitLinkF :=
  matchCitLinkF_prefixConsuming.consuming

theorem runOf_cons (u : List Char × List Char) (us : List (List Char × List Char)) :
    runOf (u :: us) = u.1 ++ (u.2 ++ runOf us) := by
  simp [runOf]

theorem runOf_nil : runOf [] = [] := rfl

theorem runOf_length_ge :
    ∀ (units : List (List Char × List Char)), (∀ u ∈ units, u.1 ≠ []) →
      units.length ≤ (runOf units).length := by
  intro units
  induction units with
  | nil => intro _; simp [runOf]
  | cons u us ih =>
    intro h
    have h1 := h u (List.mem_cons_self u us)
    have h2 := ih (fun u' hu' => h u' (List.mem_cons_of_mem u hu'))
    rw [runOf_cons]
    simp only [List.length_append, List.length_cons]
    have : 0 < u.1.length := List.length_pos.mpr h1
    omega

theorem matchUnitsAux_succ (f : Nat) (cs : List Char) :
    matchUnitsAux (f + 1) cs =
      match matchCitLinkF cs with
      | none => ([], cs)
      | some (link, r) =>
        match r.span isJsWs with
        | (ws, r2) =>
          match matchUnitsAux f r2 with
          | (units, rem) => ((link, ws) :: units, rem) := rfl

theorem matchUnitsAux_rem :
    ∀ (f : Nat) (cs : List Char) units rem, matchUnitsAux f cs = (units, rem) →
      rem.length ≤ cs.length ∧ (units ≠ [] → rem.length < cs.length) := by
  intro f
  induction f with
  | zero =>
    intro cs units rem h
    obtain ⟨rfl, rfl⟩ : ([] : List (List Char × List Char)) = units ∧ cs = rem :=
      ⟨congrArg Prod.fst h, congrArg Prod.snd h⟩
    exact ⟨le_rfl, fun hne => absurd rfl hne⟩
  | succ f ih =>
    intro cs units rem h
    rw [matchUnitsAux_succ] at h
    cases hm : matchCitLinkF cs with
    | none =>
      rw [hm] at h
      obtain ⟨rfl, rfl⟩ : ([] : List (List Char × List Char)) = units ∧ cs = rem :=
        ⟨congrArg Prod.fst h, congrArg Prod.snd h⟩
      exact ⟨le_rfl, fun hne => absurd rfl hne⟩
    | some lr =>
      obtain ⟨link, r⟩ := lr
      rw [hm] at h
      cases hsp : r.span isJsWs with
      | mk ws r2 =>
        cases hma : matchUnitsAux f r2 with
        | mk units' rem' =>
          simp only [hsp, hma] at h
          obtain ⟨-, rfl⟩ : (link, ws) :: units' = units ∧ rem' = rem :=
            ⟨congrArg Prod.fst h, congrArg Prod.snd h⟩
          have hr : r.length < cs.length := matchCitLinkF_consuming cs link r hm
          have hr2 : r2.length ≤ r.length := by
            rw [span_parts hsp]
            simp
          have h3 := (ih r2 units' rem' hma).1
          exact ⟨by omega, fun _ => by omega⟩

/-- `span` with an all-satisfying prefix and a rest whose head (if any)
fails the predicate. -/
theorem span_append_head {p : Char → Bool} {w rest : List Char}
    (hw : ∀ c ∈ w, p c = true) (hr : ∀ c, rest.head? = some c → p c = false) :
    (w ++ rest).span p = (w, rest) := by
  cases rest with
  | nil =>
    rw [List.append_nil]
    exact span_all_of hw
  | cons c r => exact span_append_of hw (hr c rfl)

theorem runOfPost_head (us : List (List Char × List Char)) (post : List Char)
    (hU : ∀ u ∈ us, ∃ ds p, CitParts ds p ∧ u.1 = citMarkerL ds p)
    (hph : ∀ c, post.head? = some c → isJsWs c = false) :
    ∀ c, (runOf us ++ post).head? = some c → isJsWs c = false := by
  intro c hc
  cases us with
  | nil =>
    rw [show runOf [] ++ post = post from by simp [runOf]] at hc
    exact hph c hc
  | cons u us' =>
    obtain ⟨ds, p, _, hm⟩ := hU u (List.mem_cons_self u us')
    rw [runOf_cons, hm, citMarkerL_cons] at hc
    simp only [List.cons_append, List.head?_cons, Option.some.injEq] at hc
    rw [← hc]
    decide

theorem matchUnitsAux_run (post : List Char)
    (hpost : matchCitLinkF post = none)
    (hph : ∀ c, post.head? = some c → isJsWs c = false) :
    ∀ (units : List (List Char × List Char)) (f : Nat), units.length ≤ f →
      (∀ u ∈ units, (∃ ds p, CitParts ds p ∧ u.1 = citMarkerL ds p) ∧
        ∀ c ∈ u.2, isJsWs c = true) →
      matchUnitsAux f (runOf units ++ post) = (units, post) := by
  intro units
  induction units with
  | nil =>
    intro f _ _
    rw [show runOf [] ++ post = post from by simp [runOf]]
    cases f with
    | zero => rfl
    | succ f =>
      rw [matchUnitsAux_succ, hpost]
  | cons u us ih =>
    intro f hf hU
    obtain ⟨⟨ds, p, hdp, hm⟩, hw⟩ := hU u (List.mem_cons_self u us)
    have hU' := fun u' hu' => hU u' (List.mem_cons_of_mem u hu')
    match f, hf with
    | f + 1, hf =>
      have hlen : us.length ≤ f := by
        have : us.length + 1 ≤ f + 1 := by simpa using hf
        omega
      have hspan : (u.2 ++ (runOf us ++ post)).span isJsWs = (u.2, runOf us ++ post) :=
        span_append_head hw
          (runOfPost_head us post (fun u' hu' => (hU' u' hu').1) hph)
      rw [show runOf (u :: us) ++ post = u.1 ++ (u.2 ++ (runOf us ++ post)) from by
        simp [runOf], hm]
      rw [matchUnitsAux_succ, matchCitLinkF_marker hdp]
      simp only [hspan, ih f hlen hU']
      rw [← hm]

theorem maxWsSuffix_close (z w : List Char) (hw : ∀ c ∈ w, isJsWs c = true) :
    maxWsSuffix (z ++ ')' :: w) = w ∧ dropWsSuffix (z ++ ')' :: w) = z ++ [')'] := by
  have hrev : (z ++ ')' :: w).reverse = w.reverse ++ ')' :: z.reverse := by simp
  have hwr : ∀ c ∈ w.reverse, isJsWs c = true := fun c hc =>
    hw c (List.mem_reverse.mp hc)
  constructor
  · unfold maxWsSuffix
    rw [hrev, takeWhile_append_of hwr (by decide)]
    simp
  · unfold dropWsSuffix
    rw [hrev, dropWhile_append_of hwr (by decide)]
    simp

theorem gMatchesAux_cons_some {m : List Char → Option (List Char × List Char)}
    {f : Nat} {c : Char} {rest mt rem : List Char} (h : m (c :: rest) = some (mt, rem)) :
    gMatchesAux m (f + 1) (c :: rest) = mt :: gMatchesAux m f rem := by
  simp [gMatchesAux, h]

theorem gMatchesAux_cons_none {m : List Char → Option (List Char × List Char)}
    {f : Nat} {c : Char} {rest : List Char} (h : m (c :: rest) = none) :
    gMatchesAux m (f + 1) (c :: rest) = gMatchesAux m f rest := by
  simp [gMatchesAux, h]

theorem gMatchesAux_fuel {m : List Char → Option (List Char × List Char)}
    (hm : Consuming m) :
    ∀ f cs, cs.length ≤ f → gMatchesAux m f cs = gMatches m cs := by
  intro f
  induction f using Nat.strong_induction_on with
  | _ f ih =>
    intro cs hf
    match cs with
    | [] => cases f <;> rfl
    | c :: rest =>
      match f, hf with
      | f + 1, hf =>
        have hf' : rest.length + 1 ≤ f + 1 := by simpa using hf
        show gMatchesAux m (f + 1) (c :: rest) = gMatchesAux m (rest.length + 1) (c :: rest)
        cases hmm : m (c :: rest) with
        | none =>
          rw [gMatchesAux_cons_none hmm, gMatchesAux_cons_none hmm,
            ih f (by omega) rest (by omega)]
          rfl
        | some pr =>
          obtain ⟨mt, rem⟩ := pr
          have hlt : rem.length < rest.length + 1 := hm _ _ _ hmm
          rw [gMatchesAux_cons_some hmm, gMatchesAux_cons_some hmm,
            ih f (by omega) rem (by omega), ih rest.length (by omega) rem (by omega)]

theorem gMatches_nil (m : List Char → Option (List Char × List Char)) :
    gMatches m [] = [] := rfl

theorem gMatches_cons_some {m : List Char → Option (List Char × List Char)}
    {c : Char} {rest mt rem : List Char} (hm : Consuming m)
    (h : m (c :: rest) = some (mt, rem)) :
    gMatches m (c :: rest) = mt :: gMatches m rem := by
  show gMatchesAux m (rest.length + 1) (c :: rest) = _
  have hlt : rem.length < rest.length + 1 := hm _ _ _ h
  rw [gMatchesAux_cons_some h, gMatchesAux_fuel hm rest.length rem (by omega)]

theorem gMatches_cons_none {m : List Char → Option (List Char × List Char)}
    {c : Char} {rest : List Char} (h : m (c :: rest) = none) :
    gMatches m (c :: rest) = gMatches m rest := by
  show gMatchesAux m (rest.length + 1) (c :: rest) = _
  rw [gMatchesAux_cons_none h]
  rfl

theorem gMatches_append_nomatch {m : List Char → Option (List Char × List Char)}
    (x y : List Char) (hx : ∀ c r, c ∈ x → m (c :: r) = none) :
    gMatches m (x ++ y) = gMatches m y := by
  induction x with
  | nil => rfl
  | cons c x ih =>
    rw [List.cons_append, gMatches_cons_none (hx c (x ++ y) (List.mem_cons_self c x)),
      ih (fun c' r hc' => hx c' r (List.mem_cons_of_mem c hc'))]

theorem gMatches_core :
    ∀ (us : List (List Char × List Char)) (ds p : List Char), CitParts ds p →
      (∀ u ∈ us, (∃ ds' p', CitParts ds' p' ∧ u.1 = citMarkerL ds' p') ∧
        ∀ c ∈ u.2, isJsWs c = true) →
      gMatches matchCitLinkF (runOf us ++ citMarkerL ds p) =
        us.map Prod.fst ++ [citMarkerL ds p] := by
  intro us
  induction us with
  | nil =>
    intro ds p hdp _
    rw [show runOf [] ++ citMarkerL ds p = citMarkerL ds p from by simp [runOf]]
    have h := matchCitLinkF_marker hdp []
    rw [List.append_nil] at h
    rw [citMarkerL_cons] at h ⊢
    rw [gMatches_cons_some matchCitLinkF_consuming h, gMatches_nil]
    simp
  | cons u us ih =>
    intro ds p hdp hU
    obtain ⟨⟨ds', p', hdp', hm'⟩, hw'⟩ := hU u (List.mem_cons_self u us)
    have hU' := fun u' hu' => hU u' (List.mem_cons_of_mem u hu')
    rw [show runOf (u :: us) ++ citMarkerL ds p =
      u.1 ++ (u.2 ++ (runOf us ++ citMarkerL ds p)) from by simp [runOf], hm']
    have h := matchCitLinkF_marker hdp' (u.2 ++ (runOf us ++ citMarkerL ds p))
    rw [citMarkerL_cons ds' p'] at h ⊢
    rw [List.cons_append] at h ⊢
    rw [gMatches_cons_some matchCitLinkF_consuming h]
    rw [gMatches_append_nomatch u.2 _ (fun c r hc => matchCitLinkF_head_ne r (fun he => by
      have hws := hw' c hc
      rw [he] at hws
      exact absurd hws (by decide)))]
    rw [ih ds p hdp hU']
    simp [hm', citMarkerL]

theorem tryCitGroup_head_ne {c : Char} (r : List Char) (hc : c ≠ '[') :
    tryCitGroup (c :: r) = none := by
  have hmu : matchUnits (c :: r) = ([], c :: r) := by
    show matchUnitsAux (c :: r).length (c :: r) = ([], c :: r)
    rw [show (c :: r).length = r.length + 1 from by simp, matchUnitsAux_succ,
      matchCitLinkF_head_ne r hc]
  unfold tryCitGroup
  rw [hmu]
  rfl

theorem tryCitGroup_consuming : Consuming tryCitGroup := by
  intro cs rep rem h
  unfold tryCitGroup at h
  cases hmu : matchUnits cs with
  | mk units rem' =>
    rw [hmu] at h
    dsimp only at h
    split at h
    · simp at h
    next h2 =>
      have hrem : rem' = rem := by
        split at h
        · exact congrArg Prod.snd (Option.some.inj h)
        · exact congrArg Prod.snd (Option.some.inj h)
      have hne : units ≠ [] := by
        intro hu
        rw [hu] at h2
        simp at h2
      subst hrem
      exact (matchUnitsAux_rem cs.length cs units rem' hmu).2 hne

theorem tryCitGroup_run (us : List (List Char × List Char)) (ds p w post : List Char)
    (hU : ∀ u ∈ us, (∃ ds' p', CitParts ds' p' ∧ u.1 = citMarkerL ds' p') ∧
      ∀ c ∈ u.2, isJsWs c = true)
    (hdp : CitParts ds p) (hw : ∀ c ∈ w, isJsWs c = true) (hus : us ≠ [])
    (hpost : matchCitLinkF post = none)
    (hph : ∀ c, post.head? = some c → isJsWs c = false) :
    tryCitGroup (runOf (us ++ [(citMarkerL ds p, w)]) ++ post) =
      some (joinBar (us.map Prod.fst ++ [citMarkerL ds p]) ++ w, post) := by
  have hU2 : ∀ u ∈ us ++ [(citMarkerL ds p, w)],
      (∃ ds' p', CitParts ds' p' ∧ u.1 = citMarkerL ds' p') ∧
        ∀ c ∈ u.2, isJsWs c = true := by
    intro u hu
    rcases List.mem_append.mp hu with h | h
    · exact hU u h
    · obtain rfl := List.mem_singleton.mp h
      exact ⟨⟨ds, p, hdp, rfl⟩, hw⟩
  have hlen : (us ++ [(citMarkerL ds p, w)]).length ≤
      (runOf (us ++ [(citMarkerL ds p, w)]) ++ post).length := by
    have h1 := runOf_length_ge (us ++ [(citMarkerL ds p, w)]) (fun u hu => by
      obtain ⟨⟨ds', p', _, hm'⟩, -⟩ := hU2 u hu
      rw [hm']
      simp [citMarkerL])
    simp only [List.length_append] at h1 ⊢
    omega
  have hmu : matchUnits (runOf (us ++ [(citMarkerL ds p, w)]) ++ post) =
      (us ++ [(citMarkerL ds p, w)], post) :=
    matchUnitsAux_run post hpost hph (us ++ [(citMarkerL ds p, w)]) _ hlen hU2
  have hgrp : runOf (us ++ [(citMarkerL ds p, w)]) =
      (runOf us ++ ('[' :: ds ++ ']' :: '(' :: (TEXT_FRAGMENT_PREFIX ++ p))) ++
        ')' :: w := by
    simp [runOf, citMarkerL]
  have htw : maxWsSuffix (runOf (us ++ [(citMarkerL ds p, w)])) = w := by
    rw [hgrp]
    exact (maxWsSuffix_close _ w hw).1
  have hcore : dropWsSuffix (runOf (us ++ [(citMarkerL ds p, w)])) =
      runOf us ++ citMarkerL ds p := by
    rw [hgrp, (maxWsSuffix_close _ w hw).2]
    simp [citMarkerL]
  have hlinks : gMatches matchCitLinkF (runOf us ++ citMarkerL ds p) =
      us.map Prod.fst ++ [citMarkerL ds p] := gMatches_core us ds p hdp hU
  have hposlen : 0 < us.length := List.length_pos.mpr hus
  unfold tryCitGroup
  rw [hmu]
  dsimp only
  rw [if_neg (by simp; omega)]
  rw [show ((us ++ [(citMarkerL ds p, w)]).map fun u => u.1 ++ u.2).flatten =
    runOf (us ++ [(citMarkerL ds p, w)]) from rfl]
  rw [hcore, hlinks, htw]
  rw [if_neg (by simp; omega)]


/-- C4: citation grouping.  (1) A whole run of two or more citation
markers `[n](#:~:text=...)` separated only by whitespace, with the last
marker followed by trailing whitespace `w`, is rewritten to the markers
joined by the full-width vertical bar `｜` with `w` preserved outside the
join; surrounding text without `[` is untouched.  (2) A single isolated
marker (payload free of `[`) is never joined: the text is returned
unchanged. -/
theorem formatConsecutiveCitationLinks_spec
    (pre post w ds p : List Char) (us : List (List Char × List Char))
    (hU : ∀ u ∈ us, (∃ ds' p', CitParts ds' p' ∧ u.1 = citMarkerL ds' p') ∧
      ∀ c ∈ u.2, isJsWs c = true)
    (hdp : CitParts ds p) (hw : ∀ c ∈ w, isJsWs c = true)
    (hpre : '[' ∉ pre) (hpost : '[' ∉ post)
    (hph : ∀ c, post.head? = some c → isJsWs c = false) :
    (us ≠ [] →
      formatConsecutiveCitationLinks
          (pre ++ (runOf (us ++ [(citMarkerL ds p, w)]) ++ post)) =
        pre ++ ((joinBar (us.map Prod.fst ++ [citMarkerL ds p]) ++ w) ++ post)) ∧
    ('[' ∉ p →
      formatConsecutiveCitationLinks (pre ++ ((citMarkerL ds p ++ w) ++ post)) =
        pre ++ ((citMarkerL ds p ++ w) ++ post)) := by
  have hpostm : matchCitLinkF post = none := by
    cases post with
    | nil => rfl
    | cons c r =>
      exact matchCitLinkF_head_ne r (fun he => hpost (he ▸ List.mem_cons_self c r))
  have hxpre : ∀ c r, c ∈ pre → tryCitGroup (c :: r) = none :=
    fun c r hc => tryCitGroup_head_ne r (fun he => hpre (he ▸ hc))
  have hxpost : ∀ c r, c ∈ post → tryCitGroup (c :: r) = none :=
    fun c r hc => tryCitGroup_head_ne r (fun he => hpost (he ▸ hc))
  constructor
  · intro hus
    have hgrp := tryCitGroup_run us ds p w post hU hdp hw hus hpostm hph
    have hne : runOf (us ++ [(citMarkerL ds p, w)]) ++ post ≠ [] := by
      obtain ⟨u0, us', rfl⟩ : ∃ u0 us', us = u0 :: us' := by
        cases us with
        | nil => exact absurd rfl hus
        | cons a b => exact ⟨a, b, rfl⟩
      rw [List.cons_append, runOf_cons]
      obtain ⟨⟨ds0, p0, -, hm0⟩, -⟩ := hU u0 (List.mem_cons_self u0 us')
      rw [hm0, citMarkerL_cons]
      simp
    show gReplace tryCitGroup _ = _
    rw [gReplace_append_nomatch pre _ hxpre]
    congr 1
    rw [gReplace_match_head tryCitGroup_consuming hgrp hne]
    congr 1
    exact gReplace_id_of_nomatch post hxpost
  · intro hbp
    have hU1 : ∀ u ∈ [(citMarkerL ds p, w)],
        (∃ ds' p', CitParts ds' p' ∧ u.1 = citMarkerL ds' p') ∧
          ∀ c ∈ u.2, isJsWs c = true := by
      intro u hu
      obtain rfl := List.mem_singleton.mp hu
      exact ⟨⟨ds, p, hdp, rfl⟩, hw⟩
    have hlen1 : ([(citMarkerL ds p, w)] : List (List Char × List Char)).length ≤
        (runOf [(citMarkerL ds p, w)] ++ post).length := by
      have h1 := runOf_length_ge [(citMarkerL ds p, w)] (fun u hu => by
        obtain rfl := List.mem_singleton.mp hu
        simp [citMarkerL])
      simp only [List.length_append] at h1 ⊢
      omega
    have hmu1 : matchUnits (runOf [(citMarkerL ds p, w)] ++ post) =
        ([(citMarkerL ds p, w)], post) :=
      matchUnitsAux_run post hpostm hph [(citMarkerL ds p, w)] _ hlen1 hU1
    have h0 : tryCitGroup (runOf [(citMarkerL ds p, w)] ++ post) = none := by
      unfold tryCitGroup
      rw [hmu1]
      rfl
    have hsh : runOf [(citMarkerL ds p, w)] ++ post =
        '[' :: ((ds ++ ']' :: '(' :: (TEXT_FRAGMENT_PREFIX ++ p ++ [')'])) ++
          (w ++ post)) := by
      simp [runOf, citMarkerL]
    rw [hsh] at h0
    have hnb : '[' ∉ (ds ++ ']' :: '(' :: (TEXT_FRAGMENT_PREFIX ++ p ++ [')'])) ++
        (w ++ post) := by
      intro hmem
      rcases List.mem_append.mp hmem with h | h
      · rcases List.mem_append.mp h with h | h
        · have hd := List.all_eq_true.mp hdp.2.1 '[' h
          exact absurd hd (by decide)
        · rcases List.mem_cons.mp h with h | h
          · exact absurd h (by decide)
          · rcases List.mem_cons.mp h with h | h
            · exact absurd h (by decide)
            · rcases List.mem_append.mp h with h | h
              · rcases List.mem_append.mp h with h | h
                · exact absurd h (by decide)
                · exact hbp h
              · rcases List.mem_cons.mp h with h | h
                · exact absurd h (by decide)
                · simp at h
      · rcases List.mem_append.mp h with h | h
        · have h2 := hw '[' h
          exact absurd h2 (by decide)
        · exact hpost h
    show gReplace tryCitGroup _ = _
    rw [gReplace_append_nomatch pre _ hxpre]
    congr 1
    rw [show (citMarkerL ds p ++ w) ++ post =
      '[' :: ((ds ++ ']' :: '(' :: (TEXT_FRAGMENT_PREFIX ++ p ++ [')'])) ++
        (w ++ post)) from by simp [citMarkerL]]
    rw [gReplace_cons_none h0]
    rw [gReplace_id_of_nomatch _
      (fun c r hc => tryCitGroup_head_ne r (fun he => hnb (he ▸ hc)))]

/-- C4 witness: `[1](#:~:text=x) [2](#:~:text=y)\n` becomes the two
markers joined by `｜` with the trailing newline kept, while the single
marker `[1](#:~:text=x) ` is left unchanged. -/
theorem formatConsecutiveCitationLinks_spec_witness :
    formatConsecutiveCitationLinks "[1](#:~:text=x) [2](#:~:text=y)\n".data =
      "[1](#:~:text=x)｜[2](#:~:text=y)\n".data ∧
    formatConsecutiveCitationLinks "[1](#:~:text=x) ".data =
      "[1](#:~:text=x) ".data := by
  have hph : ∀ c : Char, ([] : List Char).head? = some c → isJsWs c = false := by
    intro c hc
    simp at hc
  constructor
  · rw [show ("[1](#:~:text=x) [2](#:~:text=y)\n".data : List Char) =
      [] ++ (runOf ([("[1](#:~:text=x)".data, [' '])] ++
        [(citMarkerL ['2'] ['y'], ['\n'])]) ++ []) from by decide]
    refine ((formatConsecutiveCitationLinks_spec [] [] ['\n'] ['2'] ['y']
        [("[1](#:~:text=x)".data, [' '])] ?_ ⟨by decide, by decide, by decide, by decide⟩
        (by decide) (by decide) (by decide) hph).1 (by decide)).trans (by decide)
    intro u hu
    obtain rfl := List.mem_singleton.mp hu
    exact ⟨⟨['1'], ['x'], ⟨by decide, by decide, by decide, by decide⟩, by decide⟩, by decide⟩
  · rw [show ("[1](#:~:text=x) ".data : List Char) =
      [] ++ ((citMarkerL ['1'] ['x'] ++ [' ']) ++ []) from by decide]
    exact ((formatConsecutiveCitationLinks_spec [] [] [' '] ['1'] ['x'] []
        (fun u hu => absurd hu (List.not_mem_nil u))
        ⟨by decide, by decide, by decide, by decide⟩ (by decide)
        (by decide) (by decide) hph).2 (by decide)).trans (by decide)

end Htmd
